import Mathlib

/-!
# Verification of the persistent-prime engine (`prime.py`)

A shallow embedding of the `Prime` class from `prime.py`.  The engine's
mutable object state (the unordered membership set `known_primes` and the
ordered contiguous list `known_primes_contiguous`) is modelled by the
structure `PrimeState`, and every method is modelled as a function from a
state to a result paired with the successor state.  Python's generators are
modelled by fusing each generator with its consumer: `iterLoop` materialises
the full list of values yielded by a bounded `iter_primes` call, while
`trialLoop` and `pfLoop` are the loops of `is_prime` and `prime_factors`
fused with the lazy `iter_primes` instance each of them drains, so that side
effects happen exactly up to the point where the consumer breaks.

The mutual recursion between `iter_primes` and `is_prime` is not structurally
terminating, so every recursive function takes a fuel argument and returns
`none` when the fuel runs out (or when the Python original would die with an
`IndexError` on an empty contiguous list).  Termination theorems assert that
some fuel yields a result.
-/

namespace PPrime

/-- The two cache containers of the `Prime` object: the membership set
`known_primes` (a Python `set`) and the contiguous list
`known_primes_contiguous` (lines 10-12 of `prime.py`). -/
structure PrimeState where
  known_primes : Finset ℕ
  known_primes_contiguous : List ℕ
deriving DecidableEq

/-- `Prime._add_known_prime` (lines 24-26): idempotent insert into the
membership set only. -/
def add_known_prime (st : PrimeState) (p : ℕ) : PrimeState :=
  { st with known_primes := insert p st.known_primes }

/-- The `known_primes_contiguous` property setter (lines 32-35): replaces the
contiguous list and unions its elements into the membership set. -/
def set_contiguous (st : PrimeState) (kpc : List ℕ) : PrimeState :=
  { known_primes_contiguous := kpc
    known_primes := st.known_primes ∪ kpc.toFinset }

/-- `Prime.__init__` (lines 10-12): empty set, then the seed
`[2, 3, 5, 7, 11]` assigned through the property setter. -/
def initState : PrimeState := set_contiguous ⟨∅, []⟩ [2, 3, 5, 7, 11]

/-- The Python exception classes that the methods actually raise:
`NotImplementedError` at line 62 (`iter_primes` start index too large),
`NameError` at line 164 (the failed-verification `raise` builds its message
with the undefined name `verify_num`, so constructing the intended
`ValueError` itself raises `NameError`), `ValueError` at line 167 (loaded
list shorter than the current one), `FileExistsError` from mode `'x'` in
`save` (line 177). -/
inductive PyError
  | notImplementedError
  | nameError
  | valueError
  | fileExistsError
deriving DecidableEq

/-- `_finished` (lines 65-67): `(max_value is not None and c > max_value) or
(max_num is not None and ii is not None and ii >= max_num)`. -/
def finished (mv mn : Option ℕ) (c : ℕ) (ii : Option ℕ) : Bool :=
  (match mv with
   | some v => decide (v < c)
   | none => false) ||
  (match mn, ii with
   | some m, some i => decide (m ≤ i)
   | _, _ => false)

mutual

/-- Lines 74-77 of `iter_primes`: `while not self.is_prime(c): c += 2;
if _finished(c): return`.  Returns `some (some c', st')` when the candidate
scan reaches a number `is_prime` accepts, `some (none, st')` when the
`_finished` bound fires mid-scan (the generator returns), `none` on fuel
exhaustion. -/
def growLoop : ℕ → Option ℕ → Option ℕ → ℕ → PrimeState → Option (Option ℕ × PrimeState)
  | 0, _, _, _, _ => none
  | fuel + 1, mv, mn, c, st =>
    match is_prime fuel c st with
    | none => none
    | some (true, st') => some (some c, st')
    | some (false, st') =>
      if finished mv mn (c + 2) none then some (none, st')
      else growLoop fuel mv mn (c + 2) st'

/-- Lines 70-78 of `iter_primes`: `while ii+1 > len(kpc)` extend the
contiguous list one prime at a time, starting each scan at `kpc[-1] + 2`
(the source raises `IndexError` on an empty list, modelled as `none`), and
appending through the property setter (`+=` assigns through it).  Returns
`some (some c, st')` once index `ii` exists (with the loop's current `c`
value, needed by the caller's `_finished(c, ii)` re-check), and
`some (none, st')` when a `_finished` check makes the generator return. -/
def extendLoop : ℕ → Option ℕ → Option ℕ → ℕ → ℕ → PrimeState → Option (Option ℕ × PrimeState)
  | 0, _, _, _, _, _ => none
  | fuel + 1, mv, mn, c, ii, st =>
    if st.known_primes_contiguous.length < ii + 1 then
      match st.known_primes_contiguous.getLast? with
      | none => none
      | some last =>
        if finished mv mn (last + 2) none then some (none, st)
        else
          match growLoop fuel mv mn (last + 2) st with
          | none => none
          | some (none, st') => some (none, st')
          | some (some p, st') =>
            extendLoop fuel mv mn p ii
              (set_contiguous st' (st'.known_primes_contiguous ++ [p]))
    else some (some c, st)

/-- Lines 105-114: the `for p in self.iter_primes():` loop of `is_prime`,
fused with the unbounded generator it drains.  Each round performs one
generator step (extend the list if index `ii` is missing, then read
`kpc[ii]`); with no bounds set, `_finished` is always false, so the branch
where the generator would return is unreachable. -/
def trialLoop : ℕ → ℕ → ℕ → PrimeState → Option (Bool × PrimeState)
  | 0, _, _, _ => none
  | fuel + 1, n, ii, st =>
    match extendLoop fuel none none 1 ii st with
    | none => none
    | some (none, _) => none
    | some (some _, st') =>
      match st'.known_primes_contiguous[ii]? with
      | none => none
      | some p =>
        if n % p = 0 then some (false, st')
        else if n < p ^ 2 then some (true, add_known_prime st' n)
        else trialLoop fuel n (ii + 1) st'

/-- `Prime.is_prime` (lines 85-116): short-circuit on set membership, else
trial-divide by the streamed primes. -/
def is_prime : ℕ → ℕ → PrimeState → Option (Bool × PrimeState)
  | 0, _, _ => none
  | fuel + 1, n, st =>
    if n ∈ st.known_primes then some (true, st)
    else trialLoop fuel n 0 st

end

/-- Lines 69-83 of `iter_primes`, materialised: the list of all values the
generator yields together with the final state.  `c` is the loop variable
initialised to `1` at line 68; note that the outer `while not _finished(c, ii)`
re-checks the stale `c` left behind by the last extension. -/
def iterLoop : ℕ → Option ℕ → Option ℕ → ℕ → ℕ → PrimeState → Option (List ℕ × PrimeState)
  | 0, _, _, _, _, _ => none
  | fuel + 1, mv, mn, c, ii, st =>
    if finished mv mn c (some ii) then some ([], st)
    else
      match extendLoop fuel mv mn c ii st with
      | none => none
      | some (none, st') => some ([], st')
      | some (some c', st') =>
        match st'.known_primes_contiguous[ii]? with
        | none => none
        | some next_p =>
          if finished mv mn next_p none then some ([], st')
          else
            match iterLoop fuel mv mn c' (ii + 1) st' with
            | none => none
            | some (ys, st'') => some (next_p :: ys, st'')

/-- `Prime.iter_primes` (lines 38-83): `ii = start_num or 0`, the
`NotImplementedError` guard of lines 61-63, then the main loop.  The result
is the whole yielded sequence paired with the final state (`none` inside the
`Except` means the fuel ran out). -/
def iter_primes (fuel : ℕ) (mv mn start_num : Option ℕ) (st : PrimeState) :
    Except PyError (Option (List ℕ × PrimeState)) :=
  let ii := start_num.getD 0
  if st.known_primes_contiguous.length < ii then .error .notImplementedError
  else .ok (iterLoop fuel mv mn 1 ii st)

mutual

/-- Lines 135-139: the `for p in self.iter_primes(n**(1/2)):` loop of
`prime_factors`, fused with the bounded generator it drains.  The source
bounds the scan by the floating-point `n**(1/2)`; following the spec's
wording it is modelled by the exact square root: for natural `c`,
`c > sqrt n` holds iff `c > Nat.sqrt n`. -/
def pfLoop : ℕ → ℕ → ℕ → ℕ → PrimeState → Option (List ℕ × PrimeState)
  | 0, _, _, _, _ => none
  | fuel + 1, n, c, ii, st =>
    if finished (some (Nat.sqrt n)) none c (some ii) then some ([], st)
    else
      match extendLoop fuel (some (Nat.sqrt n)) none c ii st with
      | none => none
      | some (none, st') => some ([], st')
      | some (some c', st') =>
        match st'.known_primes_contiguous[ii]? with
        | none => none
        | some p =>
          if finished (some (Nat.sqrt n)) none p none then some ([], st')
          else
            if n % p = 0 then
              match prime_factors fuel (n / p) st' with
              | none => none
              | some (fs, st'') => some (p :: fs, st'')
            else pfLoop fuel n c' (ii + 1) st'

/-- `Prime.prime_factors` (lines 118-142): scan primes up to `sqrt n` for a
divisor, recurse on the cofactor, and fall back to `[n]` when no divisor is
found. -/
def prime_factors : ℕ → ℕ → PrimeState → Option (List ℕ × PrimeState)
  | 0, _, _ => none
  | fuel + 1, n, st =>
    match pfLoop fuel n 1 0 st with
    | none => none
    | some (f, st') => some ((if f.isEmpty then [n] else f), st')

end

/-- Lines 153-156 of `are_prime`: the loop sets `found` on every composite
and tests every candidate (no early exit). -/
def areLoop (fuel : ℕ) : List ℕ → Bool → PrimeState → Option (Bool × PrimeState)
  | [], found, st => some (!found, st)
  | c :: cs, found, st =>
    match is_prime fuel c st with
    | none => none
    | some (b, st') => areLoop fuel cs (found || !b) st'

/-- `Prime.are_prime` (lines 144-157). -/
def are_prime (fuel : ℕ) (candidates : List ℕ) (st : PrimeState) :
    Option (Bool × PrimeState) :=
  areLoop fuel candidates false st

/-- Lines 165-171 of `load`, after verification: the length-regression check
against the *current* contiguous list, then `self.__known_primes = set()`
followed by assignment through the property setter. -/
def loadAssign (kpc : List ℕ) (load_smaller : Bool) (st : PrimeState) :
    PrimeState × Option PyError :=
  if kpc.length < st.known_primes_contiguous.length ∧ ¬ load_smaller then
    (st, some .valueError)
  else (set_contiguous { st with known_primes := ∅ } kpc, none)

/-- `Prime.load` (lines 159-171).  The file read is modelled by passing the
parsed integer list `kpc` directly.  The result is the engine state after the
call together with the exception raised, if any: a failed verification
leaves behind whatever state the `are_prime` pass produced and raises
(`NameError`, because the message of the intended `ValueError` references
the undefined name `verify_num`). -/
def load (fuel : ℕ) (kpc : List ℕ) (verify : ℕ) (load_smaller : Bool)
    (st : PrimeState) : Option (PrimeState × Option PyError) :=
  if verify ≠ 0 then
    match are_prime fuel (kpc.take verify) st with
    | none => none
    | some (ok, st') =>
      if ok then some (loadAssign kpc load_smaller st')
      else some (st', some .nameError)
  else some (loadAssign kpc load_smaller st)

/-- `Prime.save` (lines 173-179): the destination file is modelled by the
flag `exists_already`; mode `'x'` fails with `FileExistsError` when the
destination exists and `overwrite` is false, otherwise the newline-joined
decimal rendering of the contiguous list is written and its length
returned. -/
def save (exists_already overwrite : Bool) (st : PrimeState) : Except PyError ℕ :=
  if exists_already ∧ ¬ overwrite then .error .fileExistsError
  else
    .ok (String.length
      (String.intercalate "\n" (st.known_primes_contiguous.map toString)))

/-! ## Call traces -/

/-- One public query call on the engine (`load`/`save` are the checkpoint
methods and are treated separately). -/
inductive Call
  | isPrime (n : ℕ)
  | iterPrimes (mv mn s : Option ℕ)
  | primeFactors (n : ℕ)
  | arePrime (cands : List ℕ)

/-- Run one call with the given fuel and keep the engine state it leaves
behind.  A raised `NotImplementedError` leaves the state unchanged; `none`
means the fuel ran out. -/
def runCall (fuel : ℕ) (st : PrimeState) : Call → Option PrimeState
  | .isPrime n => (is_prime fuel n st).map Prod.snd
  | .iterPrimes mv mn s =>
    match iter_primes fuel mv mn s st with
    | .error _ => some st
    | .ok none => none
    | .ok (some (_, st')) => some st'
  | .primeFactors n => (prime_factors fuel n st).map Prod.snd
  | .arePrime cands => (are_prime fuel cands st).map Prod.snd

/-- Run a sequence of calls, each with its own fuel. -/
def runTrace : List (ℕ × Call) → PrimeState → Option PrimeState
  | [], st => some st
  | (f, c) :: rest, st => (runCall f st c).bind (runTrace rest)

/-- Calls that never ask about the number `1` (the one input that pollutes
the membership set). -/
def callNoOne : Call → Prop
  | .isPrime n => n ≠ 1
  | .arePrime cands => 1 ∉ cands
  | _ => True

/-- Projection of a completed `iter_primes` call onto the yielded list
(`none` when the fuel ran out or the start guard raised). -/
def iterYields (fuel : ℕ) (mv mn s : Option ℕ) (st : PrimeState) :
    Option (List ℕ) :=
  match iter_primes fuel mv mn s st with
  | .ok (some (ys, _)) => some ys
  | _ => none

/-- Projection of a completed `iter_primes` call onto the state it leaves. -/
def iterFinal (fuel : ℕ) (mv mn s : Option ℕ) (st : PrimeState) :
    Option PrimeState :=
  match iter_primes fuel mv mn s st with
  | .ok (some (_, st')) => some st'
  | _ => none

/-- A concrete engine state whose cache reaches `31`: the seed state after
assigning a longer contiguous list through the property setter. -/
def wideState : PrimeState :=
  set_contiguous initState [2, 3, 5, 7, 11, 13, 17, 19, 23, 29, 31]

/-- The engine state left behind by `iter_primes(max_num=10)` from the seed:
both caches hold exactly the first ten primes. -/
def tenState : PrimeState :=
  ⟨{2, 3, 5, 7, 11, 13, 17, 19, 23, 29}, [2, 3, 5, 7, 11, 13, 17, 19, 23, 29]⟩

/-! ## Spec-side notions -/

/-- The ascending list of all primes `≤ m` — what section 3 of the spec calls
the gap-free prime prefix up to `m`. -/
def primesUpTo (m : ℕ) : List ℕ :=
  (List.range (m + 1)).filter (fun p => decide (Nat.Prime p))

/-- The cache invariant the proofs run on: every member of the membership set
is `1` or a prime (the weakening by `1` is forced by `is_prime(1)`, see claim
C5), the contiguous list is exactly the primes up to some `m ≥ 11`, and the
contiguous list is contained in the membership set. -/
structure CacheInv (st : PrimeState) : Prop where
  set_ok : ∀ p ∈ st.known_primes, p = 1 ∨ Nat.Prime p
  kpc_eq : ∃ m, 11 ≤ m ∧ st.known_primes_contiguous = primesUpTo m
  kpc_mem : ∀ p ∈ st.known_primes_contiguous, p ∈ st.known_primes

/-- The section-3 invariants exactly as the spec states them: every member of
the membership set is prime, the contiguous list is the gap-free ascending
prime sequence up to its last element (with the construction-time seed
present), and the contiguous list is contained in the set. -/
structure SpecInv (st : PrimeState) : Prop where
  set_prime : ∀ p ∈ st.known_primes, Nat.Prime p
  kpc_eq : ∃ m, 11 ≤ m ∧ st.known_primes_contiguous = primesUpTo m
  kpc_mem : ∀ p ∈ st.known_primes_contiguous, p ∈ st.known_primes

/-- Monotone cache growth: the old contiguous list is an initial segment of
the new one and the membership set only gains elements. -/
def Grows (st st' : PrimeState) : Prop :=
  (∃ t, st.known_primes_contiguous ++ t = st'.known_primes_contiguous) ∧
    st.known_primes ⊆ st'.known_primes

/-! ## Facts about `primesUpTo` -/

lemma mem_primesUpTo {m p : ℕ} : p ∈ primesUpTo m ↔ Nat.Prime p ∧ p ≤ m := by
  constructor
  · intro h
    rcases List.mem_filter.1 h with ⟨h1, h2⟩
    exact ⟨of_decide_eq_true h2, Nat.lt_succ_iff.1 (List.mem_range.1 h1)⟩
  · rintro ⟨hp, hle⟩
    exact List.mem_filter.2 ⟨List.mem_range.2 (Nat.lt_succ_of_le hle), decide_eq_true hp⟩

lemma primesUpTo_pairwise (m : ℕ) : (primesUpTo m).Pairwise (· < ·) :=
  List.Pairwise.sublist (List.filter_sublist _) (List.pairwise_lt_range (m + 1))

/-- Two strictly sorted lists of naturals with the same members are equal. -/
lemma sorted_eq_of_mem_iff : ∀ {l₁ l₂ : List ℕ}, l₁.Pairwise (· < ·) →
    l₂.Pairwise (· < ·) → (∀ x, x ∈ l₁ ↔ x ∈ l₂) → l₁ = l₂ := by
  intro l₁
  induction l₁ with
  | nil =>
    intro l₂ _ _ hmem
    cases l₂ with
    | nil => rfl
    | cons b t₂ => exact absurd ((hmem b).2 (List.mem_cons_self b t₂)) (List.not_mem_nil b)
  | cons a t₁ ih =>
    intro l₂ h₁ h₂ hmem
    cases l₂ with
    | nil => exact absurd ((hmem a).1 (List.mem_cons_self a t₁)) (List.not_mem_nil a)
    | cons b t₂ =>
      have hab : a = b := by
        have ha : a ∈ b :: t₂ := (hmem a).1 (List.mem_cons_self a t₁)
        have hb : b ∈ a :: t₁ := (hmem b).2 (List.mem_cons_self b t₂)
        rcases List.mem_cons.1 ha with h | h
        · exact h
        · rcases List.mem_cons.1 hb with h' | h'
          · exact h'.symm
          · have := (List.pairwise_cons.1 h₁).1 b h'
            have := (List.pairwise_cons.1 h₂).1 a h
            omega
      subst hab
      have ht : t₁ = t₂ := by
        refine ih (List.pairwise_cons.1 h₁).2 (List.pairwise_cons.1 h₂).2 (fun x => ?_)
        constructor
        · intro hx
          have hxa : a < x := (List.pairwise_cons.1 h₁).1 x hx
          rcases List.mem_cons.1 ((hmem x).1 (List.mem_cons_of_mem a hx)) with h | h
          · omega
          · exact h
        · intro hx
          have hxa : a < x := (List.pairwise_cons.1 h₂).1 x hx
          rcases List.mem_cons.1 ((hmem x).2 (List.mem_cons_of_mem a hx)) with h | h
          · omega
          · exact h
      rw [ht]

lemma primesUpTo_mono {a b : ℕ} (h : a ≤ b) : ∃ t, primesUpTo a ++ t = primesUpTo b := by
  refine ⟨((List.range (b - a)).map (fun x => (a + 1) + x)).filter
    (fun p => decide (Nat.Prime p)), ?_⟩
  have hsplit : List.range (b + 1) =
      List.range (a + 1) ++ (List.range (b - a)).map (fun x => (a + 1) + x) := by
    rw [← List.range_add]
    congr 1
    omega
  rw [primesUpTo, primesUpTo, hsplit, List.filter_append]

/-- In a strictly sorted list all of whose members are at least 2, the entry
at index `j` is at least `j + 2`. -/
lemma sorted_get_ge {l : List ℕ} (hs : l.Pairwise (· < ·)) (h2 : ∀ x ∈ l, 2 ≤ x) :
    ∀ j p, l[j]? = some p → j + 2 ≤ p := by
  intro j
  induction j with
  | zero =>
    intro p hp
    exact h2 p (List.getElem?_mem hp)
  | succ j ih =>
    intro p hp
    obtain ⟨hlen, rfl⟩ := List.getElem?_eq_some.1 hp
    have hj : j < l.length := Nat.lt_of_succ_lt hlen
    have hq := ih l[j] (List.getElem?_eq_getElem hj)
    have hlt := List.pairwise_iff_getElem.1 hs j (j + 1) hj hlen (Nat.lt_succ_self j)
    omega

/-- Gap-freeness of the prime list: every prime below the entry at index `ii`
appears at an earlier index. -/
lemma primesUpTo_gapfree {m ii p : ℕ} (hp : (primesUpTo m)[ii]? = some p) :
    ∀ q, Nat.Prime q → q < p → ∃ j, j < ii ∧ (primesUpTo m)[j]? = some q := by
  intro q hq hlt
  have hpm : p ∈ primesUpTo m := List.getElem?_mem hp
  have hqm : q ∈ primesUpTo m :=
    mem_primesUpTo.2 ⟨hq, le_trans (le_of_lt hlt) (mem_primesUpTo.1 hpm).2⟩
  obtain ⟨j, hj, hget⟩ := List.mem_iff_getElem.1 hqm
  refine ⟨j, ?_, by rw [List.getElem?_eq_getElem hj, hget]⟩
  by_contra hge
  push_neg at hge
  obtain ⟨hii, hpget⟩ := List.getElem?_eq_some.1 hp
  rcases Nat.lt_or_ge ii j with h | h
  · have := List.pairwise_iff_getElem.1 (primesUpTo_pairwise m) ii j hii hj h
    rw [hpget, hget] at this
    omega
  · have : ii = j := by omega
    subst this
    rw [hpget] at hget
    omega

lemma getLast?_mem_nat : ∀ {l : List ℕ} {a : ℕ}, l.getLast? = some a → a ∈ l := by
  intro l
  induction l with
  | nil => intro a h; simp [List.getLast?] at h
  | cons x t ih =>
    intro a h
    cases t with
    | nil =>
      simp [List.getLast?] at h
      simp [h]
    | cons y t' =>
      rw [List.getLast?_cons_cons] at h
      exact List.mem_cons_of_mem x (ih h)

lemma getLast?_max {l : List ℕ} (hs : l.Pairwise (· < ·)) :
    ∀ {a : ℕ}, l.getLast? = some a → ∀ x ∈ l, x ≤ a := by
  induction l with
  | nil => intro a h; simp [List.getLast?] at h
  | cons x t ih =>
    intro a h y hy
    cases t with
    | nil =>
      simp [List.getLast?] at h
      rcases List.mem_cons.1 hy with h' | h'
      · omega
      · exact absurd h' (List.not_mem_nil y)
    | cons z t' =>
      rw [List.getLast?_cons_cons] at h
      have ha : a ∈ z :: t' := getLast?_mem_nat h
      rcases List.mem_cons.1 hy with h' | h'
      · subst h'
        exact le_of_lt ((List.pairwise_cons.1 hs).1 a ha)
      · exact ih (List.pairwise_cons.1 hs).2 h y h'

/-- The last entry of `primesUpTo m` (for `m ≥ 11`) is the largest prime
`≤ m`, itself at least 11, and `primesUpTo m` equals `primesUpTo` of it. -/
lemma primesUpTo_getLast {m : ℕ} (hm : 11 ≤ m) :
    ∃ P, (primesUpTo m).getLast? = some P ∧ Nat.Prime P ∧ 11 ≤ P ∧ P ≤ m ∧
      (∀ q, Nat.Prime q → q ≤ m → q ≤ P) ∧ primesUpTo m = primesUpTo P := by
  have h11 : (11 : ℕ) ∈ primesUpTo m := mem_primesUpTo.2 ⟨by norm_num, hm⟩
  have hne : primesUpTo m ≠ [] := fun h => by rw [h] at h11; exact List.not_mem_nil _ h11
  obtain ⟨P, hP⟩ := Option.ne_none_iff_exists'.1 (mt List.getLast?_eq_none_iff.1 hne)
  have hPm : P ∈ primesUpTo m := getLast?_mem_nat hP
  have hmax : ∀ x ∈ primesUpTo m, x ≤ P := getLast?_max (primesUpTo_pairwise m) hP
  obtain ⟨hPp, hPle⟩ := mem_primesUpTo.1 hPm
  refine ⟨P, hP, hPp, hmax 11 h11, hPle, fun q hq hqm => hmax q (mem_primesUpTo.2 ⟨hq, hqm⟩), ?_⟩
  refine sorted_eq_of_mem_iff (primesUpTo_pairwise m) (primesUpTo_pairwise P) (fun x => ?_)
  rw [mem_primesUpTo, mem_primesUpTo]
  constructor
  · rintro ⟨hx, hxm⟩
    exact ⟨hx, hmax x (mem_primesUpTo.2 ⟨hx, hxm⟩)⟩
  · rintro ⟨hx, hxP⟩
    exact ⟨hx, le_trans hxP hPle⟩

/-! ## The next prime -/

lemma exists_gt_prime (k : ℕ) : ∃ p, k < p ∧ Nat.Prime p := by
  obtain ⟨p, hle, hp⟩ := Nat.exists_infinite_primes (k + 1)
  exact ⟨p, hle, hp⟩

/-- The least prime strictly greater than `k`. -/
def nextPrime (k : ℕ) : ℕ := Nat.find (exists_gt_prime k)

lemma nextPrime_gt (k : ℕ) : k < nextPrime k := (Nat.find_spec (exists_gt_prime k)).1

lemma nextPrime_prime (k : ℕ) : Nat.Prime (nextPrime k) := (Nat.find_spec (exists_gt_prime k)).2

lemma nextPrime_min {k r : ℕ} (hr : k < r) (hp : Nat.Prime r) : nextPrime k ≤ r :=
  Nat.find_min' (exists_gt_prime k) ⟨hr, hp⟩

lemma nextPrime_le_two_mul {k : ℕ} (hk : k ≠ 0) : nextPrime k ≤ 2 * k := by
  obtain ⟨p, hp, h1, h2⟩ := Nat.exists_prime_lt_and_le_two_mul k hk
  exact le_trans (nextPrime_min h1 hp) h2

/-- Appending the next prime extends the gap-free prefix. -/
lemma primesUpTo_append_nextPrime {P : ℕ} (hP : Nat.Prime P) :
    primesUpTo P ++ [nextPrime P] = primesUpTo (nextPrime P) := by
  set q := nextPrime P with hq
  have hPq : P < q := nextPrime_gt P
  refine sorted_eq_of_mem_iff ?_ (primesUpTo_pairwise q) (fun x => ?_)
  · rw [List.pairwise_append]
    refine ⟨primesUpTo_pairwise P, List.pairwise_singleton _ _, fun a ha b hb => ?_⟩
    rw [List.mem_singleton] at hb
    subst hb
    exact lt_of_le_of_lt (mem_primesUpTo.1 ha).2 hPq
  · rw [List.mem_append, List.mem_singleton, mem_primesUpTo, mem_primesUpTo]
    constructor
    · rintro (⟨hx, hxP⟩ | rfl)
      · exact ⟨hx, le_trans hxP (le_of_lt hPq)⟩
      · exact ⟨nextPrime_prime P, le_refl _⟩
    · rintro ⟨hx, hxq⟩
      rcases Nat.lt_or_ge P x with h | h
      · exact Or.inr (le_antisymm hxq (nextPrime_min h hx))
      · exact Or.inl ⟨hx, h⟩

/-! ## Branch-wise unfolding equations -/

lemma finished_none_none (c : ℕ) (oii : Option ℕ) : finished none none c oii = false := rfl

lemma growLoop_succ_none {fuel : ℕ} {mv mn : Option ℕ} {c : ℕ} {st : PrimeState}
    (h : is_prime fuel c st = none) : growLoop (fuel + 1) mv mn c st = none := by
  rw [growLoop, h]

lemma growLoop_succ_true {fuel : ℕ} {mv mn : Option ℕ} {c : ℕ} {st st' : PrimeState}
    (h : is_prime fuel c st = some (true, st')) :
    growLoop (fuel + 1) mv mn c st = some (some c, st') := by
  rw [growLoop, h]

lemma growLoop_succ_false {fuel : ℕ} {mv mn : Option ℕ} {c : ℕ} {st st' : PrimeState}
    (h : is_prime fuel c st = some (false, st')) :
    growLoop (fuel + 1) mv mn c st =
      if finished mv mn (c + 2) none then some (none, st')
      else growLoop fuel mv mn (c + 2) st' := by
  rw [growLoop, h]

lemma extendLoop_succ_notlt {fuel : ℕ} {mv mn : Option ℕ} {c ii : ℕ} {st : PrimeState}
    (hlen : ¬ st.known_primes_contiguous.length < ii + 1) :
    extendLoop (fuel + 1) mv mn c ii st = some (some c, st) := by
  rw [extendLoop, if_neg hlen]

lemma extendLoop_succ_nil {fuel : ℕ} {mv mn : Option ℕ} {c ii : ℕ} {st : PrimeState}
    (hlen : st.known_primes_contiguous.length < ii + 1)
    (hlast : st.known_primes_contiguous.getLast? = none) :
    extendLoop (fuel + 1) mv mn c ii st = none := by
  rw [extendLoop, if_pos hlen, hlast]

lemma extendLoop_succ_fin {fuel : ℕ} {mv mn : Option ℕ} {c ii last : ℕ} {st : PrimeState}
    (hlen : st.known_primes_contiguous.length < ii + 1)
    (hlast : st.known_primes_contiguous.getLast? = some last)
    (hfin : finished mv mn (last + 2) none = true) :
    extendLoop (fuel + 1) mv mn c ii st = some (none, st) := by
  rw [extendLoop, if_pos hlen, hlast]
  simp [hfin]

lemma extendLoop_succ_grow_none {fuel : ℕ} {mv mn : Option ℕ} {c ii last : ℕ} {st : PrimeState}
    (hlen : st.known_primes_contiguous.length < ii + 1)
    (hlast : st.known_primes_contiguous.getLast? = some last)
    (hfin : finished mv mn (last + 2) none = false)
    (hg : growLoop fuel mv mn (last + 2) st = none) :
    extendLoop (fuel + 1) mv mn c ii st = none := by
  rw [extendLoop, if_pos hlen, hlast]
  simp [hfin, hg]

lemma extendLoop_succ_grow_cut {fuel : ℕ} {mv mn : Option ℕ} {c ii last : ℕ}
    {st st' : PrimeState}
    (hlen : st.known_primes_contiguous.length < ii + 1)
    (hlast : st.known_primes_contiguous.getLast? = some last)
    (hfin : finished mv mn (last + 2) none = false)
    (hg : growLoop fuel mv mn (last + 2) st = some (none, st')) :
    extendLoop (fuel + 1) mv mn c ii st = some (none, st') := by
  rw [extendLoop, if_pos hlen, hlast]
  simp [hfin, hg]

lemma extendLoop_succ_grow_found {fuel : ℕ} {mv mn : Option ℕ} {c ii last p : ℕ}
    {st st' : PrimeState}
    (hlen : st.known_primes_contiguous.length < ii + 1)
    (hlast : st.known_primes_contiguous.getLast? = some last)
    (hfin : finished mv mn (last + 2) none = false)
    (hg : growLoop fuel mv mn (last + 2) st = some (some p, st')) :
    extendLoop (fuel + 1) mv mn c ii st =
      extendLoop fuel mv mn p ii (set_contiguous st' (st'.known_primes_contiguous ++ [p])) := by
  rw [extendLoop, if_pos hlen, hlast]
  simp [hfin, hg]

lemma trialLoop_succ_ext_none {fuel n ii : ℕ} {st : PrimeState}
    (he : extendLoop fuel none none 1 ii st = none) : trialLoop (fuel + 1) n ii st = none := by
  rw [trialLoop, he]

lemma trialLoop_succ_ext_cut {fuel n ii : ℕ} {st st' : PrimeState}
    (he : extendLoop fuel none none 1 ii st = some (none, st')) :
    trialLoop (fuel + 1) n ii st = none := by
  rw [trialLoop, he]

lemma trialLoop_succ_get_none {fuel n ii c' : ℕ} {st st' : PrimeState}
    (he : extendLoop fuel none none 1 ii st = some (some c', st'))
    (hget : st'.known_primes_contiguous[ii]? = none) :
    trialLoop (fuel + 1) n ii st = none := by
  rw [trialLoop, he]
  simp [hget]

lemma trialLoop_succ_dvd {fuel n ii c' p : ℕ} {st st' : PrimeState}
    (he : extendLoop fuel none none 1 ii st = some (some c', st'))
    (hget : st'.known_primes_contiguous[ii]? = some p)
    (hdvd : n % p = 0) : trialLoop (fuel + 1) n ii st = some (false, st') := by
  rw [trialLoop, he]
  simp [hget, hdvd]

lemma trialLoop_succ_true {fuel n ii c' p : ℕ} {st st' : PrimeState}
    (he : extendLoop fuel none none 1 ii st = some (some c', st'))
    (hget : st'.known_primes_contiguous[ii]? = some p)
    (hdvd : ¬ n % p = 0) (hlt : n < p ^ 2) :
    trialLoop (fuel + 1) n ii st = some (true, add_known_prime st' n) := by
  rw [trialLoop, he]
  simp [hget, hdvd, hlt]

lemma trialLoop_succ_step {fuel n ii c' p : ℕ} {st st' : PrimeState}
    (he : extendLoop fuel none none 1 ii st = some (some c', st'))
    (hget : st'.known_primes_contiguous[ii]? = some p)
    (hdvd : ¬ n % p = 0) (hlt : ¬ n < p ^ 2) :
    trialLoop (fuel + 1) n ii st = trialLoop fuel n (ii + 1) st' := by
  rw [trialLoop, he]
  simp [hget, hdvd, hlt]

lemma is_prime_succ_mem {fuel n : ℕ} {st : PrimeState} (h : n ∈ st.known_primes) :
    is_prime (fuel + 1) n st = some (true, st) := by
  rw [is_prime, if_pos h]

lemma is_prime_succ_notmem {fuel n : ℕ} {st : PrimeState} (h : n ∉ st.known_primes) :
    is_prime (fuel + 1) n st = trialLoop fuel n 0 st := by
  rw [is_prime, if_neg h]

lemma iterLoop_succ_fin {fuel : ℕ} {mv mn : Option ℕ} {c ii : ℕ} {st : PrimeState}
    (hfin : finished mv mn c (some ii) = true) :
    iterLoop (fuel + 1) mv mn c ii st = some ([], st) := by
  rw [iterLoop]
  simp [hfin]

lemma iterLoop_succ_ext_none {fuel : ℕ} {mv mn : Option ℕ} {c ii : ℕ} {st : PrimeState}
    (hfin : finished mv mn c (some ii) = false)
    (he : extendLoop fuel mv mn c ii st = none) :
    iterLoop (fuel + 1) mv mn c ii st = none := by
  rw [iterLoop]
  simp [hfin, he]

lemma iterLoop_succ_ext_cut {fuel : ℕ} {mv mn : Option ℕ} {c ii : ℕ} {st st' : PrimeState}
    (hfin : finished mv mn c (some ii) = false)
    (he : extendLoop fuel mv mn c ii st = some (none, st')) :
    iterLoop (fuel + 1) mv mn c ii st = some ([], st') := by
  rw [iterLoop]
  simp [hfin, he]

lemma iterLoop_succ_get_none {fuel : ℕ} {mv mn : Option ℕ} {c ii c' : ℕ} {st st' : PrimeState}
    (hfin : finished mv mn c (some ii) = false)
    (he : extendLoop fuel mv mn c ii st = some (some c', st'))
    (hget : st'.known_primes_contiguous[ii]? = none) :
    iterLoop (fuel + 1) mv mn c ii st = none := by
  rw [iterLoop]
  simp [hfin, he, hget]

lemma iterLoop_succ_fin2 {fuel : ℕ} {mv mn : Option ℕ} {c ii c' next_p : ℕ}
    {st st' : PrimeState}
    (hfin : finished mv mn c (some ii) = false)
    (he : extendLoop fuel mv mn c ii st = some (some c', st'))
    (hget : st'.known_primes_contiguous[ii]? = some next_p)
    (hfin2 : finished mv mn next_p none = true) :
    iterLoop (fuel + 1) mv mn c ii st = some ([], st') := by
  rw [iterLoop]
  simp [hfin, he, hget, hfin2]

lemma iterLoop_succ_step_none {fuel : ℕ} {mv mn : Option ℕ} {c ii c' next_p : ℕ}
    {st st' : PrimeState}
    (hfin : finished mv mn c (some ii) = false)
    (he : extendLoop fuel mv mn c ii st = some (some c', st'))
    (hget : st'.known_primes_contiguous[ii]? = some next_p)
    (hfin2 : finished mv mn next_p none = false)
    (hrec : iterLoop fuel mv mn c' (ii + 1) st' = none) :
    iterLoop (fuel + 1) mv mn c ii st = none := by
  rw [iterLoop]
  simp [hfin, he, hget, hfin2, hrec]

lemma iterLoop_succ_step_some {fuel : ℕ} {mv mn : Option ℕ} {c ii c' next_p : ℕ}
    {st st' st'' : PrimeState} {ys : List ℕ}
    (hfin : finished mv mn c (some ii) = false)
    (he : extendLoop fuel mv mn c ii st = some (some c', st'))
    (hget : st'.known_primes_contiguous[ii]? = some next_p)
    (hfin2 : finished mv mn next_p none = false)
    (hrec : iterLoop fuel mv mn c' (ii + 1) st' = some (ys, st'')) :
    iterLoop (fuel + 1) mv mn c ii st = some (next_p :: ys, st'') := by
  rw [iterLoop]
  simp [hfin, he, hget, hfin2, hrec]

lemma pfLoop_succ_fin {fuel n c ii : ℕ} {st : PrimeState}
    (hfin : finished (some (Nat.sqrt n)) none c (some ii) = true) :
    pfLoop (fuel + 1) n c ii st = some ([], st) := by
  rw [pfLoop]
  simp [hfin]

lemma pfLoop_succ_ext_none {fuel n c ii : ℕ} {st : PrimeState}
    (hfin : finished (some (Nat.sqrt n)) none c (some ii) = false)
    (he : extendLoop fuel (some (Nat.sqrt n)) none c ii st = none) :
    pfLoop (fuel + 1) n c ii st = none := by
  rw [pfLoop]
  simp [hfin, he]

lemma pfLoop_succ_ext_cut {fuel n c ii : ℕ} {st st' : PrimeState}
    (hfin : finished (some (Nat.sqrt n)) none c (some ii) = false)
    (he : extendLoop fuel (some (Nat.sqrt n)) none c ii st = some (none, st')) :
    pfLoop (fuel + 1) n c ii st = some ([], st') := by
  rw [pfLoop]
  simp [hfin, he]

lemma pfLoop_succ_get_none {fuel n c ii c' : ℕ} {st st' : PrimeState}
    (hfin : finished (some (Nat.sqrt n)) none c (some ii) = false)
    (he : extendLoop fuel (some (Nat.sqrt n)) none c ii st = some (some c', st'))
    (hget : st'.known_primes_contiguous[ii]? = none) :
    pfLoop (fuel + 1) n c ii st = none := by
  rw [pfLoop]
  simp [hfin, he, hget]

lemma pfLoop_succ_fin2 {fuel n c ii c' p : ℕ} {st st' : PrimeState}
    (hfin : finished (some (Nat.sqrt n)) none c (some ii) = false)
    (he : extendLoop fuel (some (Nat.sqrt n)) none c ii st = some (some c', st'))
    (hget : st'.known_primes_contiguous[ii]? = some p)
    (hfin2 : finished (some (Nat.sqrt n)) none p none = true) :
    pfLoop (fuel + 1) n c ii st = some ([], st') := by
  rw [pfLoop]
  simp [hfin, he, hget, hfin2]

lemma pfLoop_succ_dvd_none {fuel n c ii c' p : ℕ} {st st' : PrimeState}
    (hfin : finished (some (Nat.sqrt n)) none c (some ii) = false)
    (he : extendLoop fuel (some (Nat.sqrt n)) none c ii st = some (some c', st'))
    (hget : st'.known_primes_contiguous[ii]? = some p)
    (hfin2 : finished (some (Nat.sqrt n)) none p none = false)
    (hdvd : n % p = 0) (hrec : prime_factors fuel (n / p) st' = none) :
    pfLoop (fuel + 1) n c ii st = none := by
  rw [pfLoop]
  simp [hfin, he, hget, hfin2, hdvd, hrec]

lemma pfLoop_succ_dvd_some {fuel n c ii c' p : ℕ} {st st' st'' : PrimeState} {fs : List ℕ}
    (hfin : finished (some (Nat.sqrt n)) none c (some ii) = false)
    (he : extendLoop fuel (some (Nat.sqrt n)) none c ii st = some (some c', st'))
    (hget : st'.known_primes_contiguous[ii]? = some p)
    (hfin2 : finished (some (Nat.sqrt n)) none p none = false)
    (hdvd : n % p = 0) (hrec : prime_factors fuel (n / p) st' = some (fs, st'')) :
    pfLoop (fuel + 1) n c ii st = some (p :: fs, st'') := by
  rw [pfLoop]
  simp [hfin, he, hget, hfin2, hdvd, hrec]

lemma pfLoop_succ_step {fuel n c ii c' p : ℕ} {st st' : PrimeState}
    (hfin : finished (some (Nat.sqrt n)) none c (some ii) = false)
    (he : extendLoop fuel (some (Nat.sqrt n)) none c ii st = some (some c', st'))
    (hget : st'.known_primes_contiguous[ii]? = some p)
    (hfin2 : finished (some (Nat.sqrt n)) none p none = false)
    (hdvd : ¬ n % p = 0) :
    pfLoop (fuel + 1) n c ii st = pfLoop fuel n c' (ii + 1) st' := by
  rw [pfLoop]
  simp [hfin, he, hget, hfin2, hdvd]

lemma prime_factors_succ_none {fuel n : ℕ} {st : PrimeState}
    (h : pfLoop fuel n 1 0 st = none) : prime_factors (fuel + 1) n st = none := by
  rw [prime_factors, h]

lemma prime_factors_succ_some {fuel n : ℕ} {st st' : PrimeState} {f : List ℕ}
    (h : pfLoop fuel n 1 0 st = some (f, st')) :
    prime_factors (fuel + 1) n st = some ((if f.isEmpty then [n] else f), st') := by
  rw [prime_factors, h]

lemma areLoop_cons_none {fuel c : ℕ} {cs : List ℕ} {found : Bool} {st : PrimeState}
    (h : is_prime fuel c st = none) : areLoop fuel (c :: cs) found st = none := by
  rw [areLoop, h]

lemma areLoop_cons_some {fuel c : ℕ} {cs : List ℕ} {found b : Bool} {st st' : PrimeState}
    (h : is_prime fuel c st = some (b, st')) :
    areLoop fuel (c :: cs) found st = areLoop fuel cs (found || !b) st' := by
  rw [areLoop, h]

/-! ## Fuel monotonicity -/

lemma core_mono : ∀ fuel fuel', fuel ≤ fuel' →
    (∀ mv mn c st r, growLoop fuel mv mn c st = some r →
      growLoop fuel' mv mn c st = some r) ∧
    (∀ mv mn c ii st r, extendLoop fuel mv mn c ii st = some r →
      extendLoop fuel' mv mn c ii st = some r) ∧
    (∀ n ii st r, trialLoop fuel n ii st = some r → trialLoop fuel' n ii st = some r) ∧
    (∀ n st r, is_prime fuel n st = some r → is_prime fuel' n st = some r) := by
  intro fuel
  induction fuel with
  | zero =>
    intro fuel' _
    refine ⟨?_, ?_, ?_, ?_⟩
    · intro mv mn c st r h
      simp [growLoop] at h
    · intro mv mn c ii st r h
      simp [extendLoop] at h
    · intro n ii st r h
      simp [trialLoop] at h
    · intro n st r h
      simp [is_prime] at h
  | succ k ih =>
    intro fuel' hf
    obtain ⟨f', rfl⟩ : ∃ f', fuel' = f' + 1 := ⟨fuel' - 1, by omega⟩
    obtain ⟨mg, me, mt, mi⟩ := ih f' (by omega)
    refine ⟨?_, ?_, ?_, ?_⟩
    · intro mv mn c st r h
      cases hip : is_prime k c st with
      | none => rw [growLoop_succ_none hip] at h; exact absurd h (by simp)
      | some res =>
        obtain ⟨b, st'⟩ := res
        cases b with
        | true =>
          rw [growLoop_succ_true hip] at h
          rw [growLoop_succ_true (mi _ _ _ hip)]
          exact h
        | false =>
          rw [growLoop_succ_false hip] at h
          rw [growLoop_succ_false (mi _ _ _ hip)]
          by_cases hfin : finished mv mn (c + 2) none = true
          · simp only [hfin, if_true] at h ⊢
            exact h
          · simp only [Bool.not_eq_true] at hfin
            simp only [hfin, Bool.false_eq_true, if_false] at h ⊢
            exact mg _ _ _ _ _ h
    · intro mv mn c ii st r h
      by_cases hlen : st.known_primes_contiguous.length < ii + 1
      · cases hlast : st.known_primes_contiguous.getLast? with
        | none => rw [extendLoop_succ_nil hlen hlast] at h; exact absurd h (by simp)
        | some last =>
          by_cases hfin : finished mv mn (last + 2) none = true
          · rw [extendLoop_succ_fin hlen hlast hfin] at h
            rw [extendLoop_succ_fin hlen hlast hfin]
            exact h
          · simp only [Bool.not_eq_true] at hfin
            cases hg : growLoop k mv mn (last + 2) st with
            | none =>
              rw [extendLoop_succ_grow_none hlen hlast hfin hg] at h
              exact absurd h (by simp)
            | some res =>
              obtain ⟨oc, st'⟩ := res
              cases oc with
              | none =>
                rw [extendLoop_succ_grow_cut hlen hlast hfin hg] at h
                rw [extendLoop_succ_grow_cut hlen hlast hfin (mg _ _ _ _ _ hg)]
                exact h
              | some p =>
                rw [extendLoop_succ_grow_found hlen hlast hfin hg] at h
                rw [extendLoop_succ_grow_found hlen hlast hfin (mg _ _ _ _ _ hg)]
                exact me _ _ _ _ _ _ h
      · rw [extendLoop_succ_notlt hlen] at h
        rw [extendLoop_succ_notlt hlen]
        exact h
    · intro n ii st r h
      cases he : extendLoop k none none 1 ii st with
      | none => rw [trialLoop_succ_ext_none he] at h; exact absurd h (by simp)
      | some res =>
        obtain ⟨oc, st'⟩ := res
        cases oc with
        | none => rw [trialLoop_succ_ext_cut he] at h; exact absurd h (by simp)
        | some c' =>
          have he' := me _ _ _ _ _ _ he
          cases hget : st'.known_primes_contiguous[ii]? with
          | none => rw [trialLoop_succ_get_none he hget] at h; exact absurd h (by simp)
          | some p =>
            by_cases hdvd : n % p = 0
            · rw [trialLoop_succ_dvd he hget hdvd] at h
              rw [trialLoop_succ_dvd he' hget hdvd]
              exact h
            · by_cases hlt : n < p ^ 2
              · rw [trialLoop_succ_true he hget hdvd hlt] at h
                rw [trialLoop_succ_true he' hget hdvd hlt]
                exact h
              · rw [trialLoop_succ_step he hget hdvd hlt] at h
                rw [trialLoop_succ_step he' hget hdvd hlt]
                exact mt _ _ _ _ h
    · intro n st r h
      by_cases hmem : n ∈ st.known_primes
      · rw [is_prime_succ_mem hmem] at h
        rw [is_prime_succ_mem hmem]
        exact h
      · rw [is_prime_succ_notmem hmem] at h
        rw [is_prime_succ_notmem hmem]
        exact mt _ _ _ _ h

lemma is_prime_mono {fuel fuel' n st r} (hf : fuel ≤ fuel')
    (h : is_prime fuel n st = some r) : is_prime fuel' n st = some r :=
  (core_mono fuel fuel' hf).2.2.2 n st r h

lemma extendLoop_mono {fuel fuel' mv mn c ii st r} (hf : fuel ≤ fuel')
    (h : extendLoop fuel mv mn c ii st = some r) : extendLoop fuel' mv mn c ii st = some r :=
  (core_mono fuel fuel' hf).2.1 mv mn c ii st r h

lemma trialLoop_mono {fuel fuel' n ii st r} (hf : fuel ≤ fuel')
    (h : trialLoop fuel n ii st = some r) : trialLoop fuel' n ii st = some r :=
  (core_mono fuel fuel' hf).2.2.1 n ii st r h

/-! ## Invariant helpers -/

lemma Grows_refl (st : PrimeState) : Grows st st :=
  ⟨⟨[], List.append_nil _⟩, Finset.Subset.refl _⟩

lemma Grows_trans {a b c : PrimeState} (h1 : Grows a b) (h2 : Grows b c) : Grows a c := by
  obtain ⟨⟨t1, ht1⟩, hs1⟩ := h1
  obtain ⟨⟨t2, ht2⟩, hs2⟩ := h2
  exact ⟨⟨t1 ++ t2, by rw [← List.append_assoc, ht1, ht2]⟩, Finset.Subset.trans hs1 hs2⟩

/-- The invariant pins the contiguous list down as `primesUpTo P` for its own
last element `P`, a prime at least 11. -/
lemma CacheInv.canonical {st : PrimeState} (h : CacheInv st) :
    ∃ P, Nat.Prime P ∧ 11 ≤ P ∧ st.known_primes_contiguous = primesUpTo P ∧
      st.known_primes_contiguous.getLast? = some P ∧
      st.known_primes_contiguous.getLastD 0 = P := by
  obtain ⟨m, hm, hkpc⟩ := h.kpc_eq
  obtain ⟨P, hlast, hPp, hP11, _, hmax, heq⟩ := primesUpTo_getLast hm
  refine ⟨P, hPp, hP11, by rw [hkpc, heq], by rw [hkpc]; exact hlast, ?_⟩
  rw [hkpc, List.getLastD_eq_getLast?, hlast]
  rfl

lemma primesUpTo_getLast_self {P : ℕ} (hPp : Nat.Prime P) (hP11 : 11 ≤ P) :
    (primesUpTo P).getLast? = some P := by
  obtain ⟨P', hlast, _, _, hle, hmax, _⟩ := primesUpTo_getLast hP11
  have h1 : P ≤ P' := hmax P hPp (le_refl P)
  have h2 : P' = P := le_antisymm hle h1
  rw [h2] at hlast
  exact hlast

/-- If no prime below `p` divides `n`, `p` itself does not divide `n`, and
`n < p ^ 2`, then `n` is 1 or prime. -/
lemma one_or_prime {n p : ℕ} (hnd : ∀ q, Nat.Prime q → q < p → ¬ q ∣ n)
    (hpnd : ¬ p ∣ n) (hlt : n < p ^ 2) : n = 1 ∨ Nat.Prime n := by
  by_cases h1 : n = 1
  · exact Or.inl h1
  right
  by_contra hnp
  have hn0 : n ≠ 0 := fun h => hpnd (h ▸ dvd_zero p)
  have hmf := Nat.minFac_prime h1
  have hsq := Nat.minFac_sq_le_self (Nat.pos_of_ne_zero hn0) hnp
  have hltp : n.minFac < p := by
    by_contra hge
    push_neg at hge
    have : p ^ 2 ≤ n.minFac ^ 2 := Nat.pow_le_pow_left hge 2
    omega
  exact hnd _ hmf hltp (Nat.minFac_dvd n)

/-- The scan history covers every prime below the entry at index `ii`. -/
lemma scan_covers {n M ii p : ℕ} (hp : (primesUpTo M)[ii]? = some p)
    (hscan : ∀ j, j < ii → ∀ r, (primesUpTo M)[j]? = some r → ¬ r ∣ n) :
    ∀ q, Nat.Prime q → q < p → ¬ q ∣ n := by
  intro q hq hlt
  obtain ⟨j, hj, hget⟩ := primesUpTo_gapfree hp q hq hlt
  exact hscan j hj q hget

lemma odd_add_two_le {a b : ℕ} (ha : Odd a) (hb : Odd b) (h : a < b) : a + 2 ≤ b := by
  obtain ⟨x, hx⟩ := ha
  obtain ⟨y, hy⟩ := hb
  omega

/-- What `is_prime n` may add to the membership set: primes not exceeding
`n`, except that `is_prime 1` adds `1` itself. -/
def NewOnly (n : ℕ) (st st' : PrimeState) : Prop :=
  ∀ p ∈ st'.known_primes,
    p ∈ st.known_primes ∨ (Nat.Prime p ∧ p ≤ n) ∨ (p = 1 ∧ n = 1)

/-- The full behavioural specification of `is_prime n` on states satisfying
the cache invariant: with enough fuel it returns `decide (n = 1 ∨ n prime)`,
preserves the invariant, only grows the caches, adds nothing to the
membership set but primes `≤ n` (or `1` when `n = 1`), and leaves the
contiguous list untouched whenever its last entry already exceeds
`sqrt n`. -/
def IsPrimeSpec (n : ℕ) : Prop :=
  ∀ st, CacheInv st → ∃ fuel b st',
    (∀ f, fuel ≤ f → is_prime f n st = some (b, st')) ∧
    b = decide (n = 1 ∨ Nat.Prime n) ∧
    CacheInv st' ∧ Grows st st' ∧ NewOnly n st st' ∧
    (Nat.sqrt n < st.known_primes_contiguous.getLastD 0 →
      st'.known_primes_contiguous = st.known_primes_contiguous)

/-- The candidate scan of lines 74-77: starting from an odd candidate
`c ∈ (P, nextPrime P]` over a cache whose contiguous list is exactly
`primesUpTo P`, and with no value bound firing below `nextPrime P`, the scan
reaches exactly `nextPrime P`, leaving the contiguous list alone and adding
only primes `≤ nextPrime P` to the membership set. -/
lemma growLoop_scan {P : ℕ} (hPp : Nat.Prime P) (hP11 : 11 ≤ P)
    (Hip : ∀ k, k ≤ 2 * P → IsPrimeSpec k) (mv mn : Option ℕ)
    (hbound : ∀ x, P < x → x ≤ nextPrime P → finished mv mn x none = false) :
    ∀ d c st, CacheInv st → st.known_primes_contiguous = primesUpTo P →
      P < c → c ≤ nextPrime P → Odd c → nextPrime P - c ≤ d →
      ∃ fuel st₁,
        (∀ f, fuel ≤ f → growLoop f mv mn c st = some (some (nextPrime P), st₁)) ∧
        CacheInv st₁ ∧
        st₁.known_primes_contiguous = st.known_primes_contiguous ∧
        st.known_primes ⊆ st₁.known_primes ∧
        (∀ x ∈ st₁.known_primes,
          x ∈ st.known_primes ∨ (Nat.Prime x ∧ x ≤ nextPrime P)) := by
  have hq2P : nextPrime P ≤ 2 * P := nextPrime_le_two_mul (by omega)
  have hqP : P < nextPrime P := nextPrime_gt P
  have hqp : Nat.Prime (nextPrime P) := nextPrime_prime P
  have hPsq : ∀ x, x ≤ 2 * P → Nat.sqrt x < P := by
    intro x hx
    rw [Nat.sqrt_lt']
    have : 2 * P < P ^ 2 := by nlinarith [hP11]
    omega
  intro d
  induction d with
  | zero =>
    intro c st hinv hkpc hPc hcq _ hd
    have hcqe : c = nextPrime P := by omega
    obtain ⟨fuelip, b, st₁, hrun, hb, hinv₁, hgrow₁, hnew₁, hpre₁⟩ := Hip c (by omega) st hinv
    have hbt : b = true := by
      rw [hb, decide_eq_true_eq]
      refine Or.inr ?_
      rw [hcqe]
      exact hqp
    subst hbt
    have hlastD : st.known_primes_contiguous.getLastD 0 = P := by
      rw [hkpc, List.getLastD_eq_getLast?, primesUpTo_getLast_self hPp hP11]
      rfl
    have hpre : st₁.known_primes_contiguous = st.known_primes_contiguous := by
      apply hpre₁
      rw [hlastD]
      exact hPsq c (by omega)
    refine ⟨fuelip + 1, st₁, ?_, hinv₁, hpre, hgrow₁.2, ?_⟩
    · intro f hf
      obtain ⟨g, rfl⟩ : ∃ g, f = g + 1 := ⟨f - 1, by omega⟩
      rw [← hcqe]
      exact growLoop_succ_true (hrun g (by omega))
    · intro x hx
      rcases hnew₁ x hx with h | ⟨h1, h2⟩ | ⟨_, h2⟩
      · exact Or.inl h
      · exact Or.inr ⟨h1, by omega⟩
      · omega
  | succ d ihd =>
    intro c st hinv hkpc hPc hcq hodd hd
    by_cases hcqe : c = nextPrime P
    · exact (ihd c st hinv hkpc hPc hcq hodd (by omega)).imp (fun fuel h => h)
    have hclt : c < nextPrime P := lt_of_le_of_ne hcq hcqe
    have hcnp : ¬ Nat.Prime c := fun hc => absurd (nextPrime_min hPc hc) (by omega)
    obtain ⟨fuelip, b, st₁', hrun, hb, hinv₁, hgrow₁, hnew₁, hpre₁⟩ := Hip c (by omega) st hinv
    have hbf : b = false := by
      rw [hb, decide_eq_false_iff_not]
      rintro (h | h)
      · omega
      · exact hcnp h
    subst hbf
    have hlastD : st.known_primes_contiguous.getLastD 0 = P := by
      rw [hkpc, List.getLastD_eq_getLast?, primesUpTo_getLast_self hPp hP11]
      rfl
    have hpre : st₁'.known_primes_contiguous = st.known_primes_contiguous := by
      apply hpre₁
      rw [hlastD]
      exact hPsq c (by omega)
    have hqodd : Odd (nextPrime P) :=
      hqp.odd_of_ne_two (by omega)
    have hc2 : c + 2 ≤ nextPrime P := odd_add_two_le hodd hqodd hclt
    have hfin : finished mv mn (c + 2) none = false := hbound (c + 2) (by omega) hc2
    obtain ⟨fuel₂, st₁, hrun₂, hinv₂, hpre₂, hsub₂, hnew₂⟩ :=
      ihd (c + 2) st₁' hinv₁ (by rw [hpre, hkpc]) (by omega) hc2
        (by obtain ⟨x, hx⟩ := hodd; exact ⟨x + 1, by omega⟩) (by omega)
    refine ⟨max fuelip fuel₂ + 1, st₁, ?_, hinv₂, by rw [hpre₂, hpre], ?_, ?_⟩
    · intro f hf
      obtain ⟨g, rfl⟩ : ∃ g, f = g + 1 := ⟨f - 1, by omega⟩
      rw [growLoop_succ_false (hrun g (by omega)), hfin]
      simp only [Bool.false_eq_true, if_false]
      exact hrun₂ g (by omega)
    · exact Finset.Subset.trans hgrow₁.2 hsub₂
    · intro x hx
      rcases hnew₂ x hx with h | ⟨h1, h2⟩
      · rcases hnew₁ x h with h' | ⟨h1', h2'⟩ | ⟨_, h2'⟩
        · exact Or.inl h'
        · exact Or.inr ⟨h1', by omega⟩
        · omega
      · exact Or.inr ⟨h1, h2⟩

/-- One fused generator round of `is_prime`'s loop: the prime `p` sits at
index `ii` after the extension given by `hE`; either the divisibility or the
square test ends the loop here with the right verdict, or `hrec` continues it
at `ii + 1`. -/
lemma trialLoop_step {n ii : ℕ} {st st₂ : PrimeState} {p cE fuelE : ℕ}
    (hE : ∀ f, fuelE ≤ f → extendLoop f none none 1 ii st = some (some cE, st₂))
    (hinv₂ : CacheInv st₂)
    (hg : st₂.known_primes_contiguous[ii]? = some p)
    (hGrow : Grows st st₂)
    (hNew : ∀ x ∈ st₂.known_primes, x ∈ st.known_primes ∨ (Nat.Prime x ∧ x ≤ n))
    (hn₂ : n ∉ st₂.known_primes)
    (hscan₂ : ∀ j, j < ii → ∀ r, st₂.known_primes_contiguous[j]? = some r →
      ¬ r ∣ n ∧ r ^ 2 ≤ n)
    (hrec : ¬ p ∣ n → p ^ 2 ≤ n →
      ∃ fuel b st', (∀ f, fuel ≤ f → trialLoop f n (ii + 1) st₂ = some (b, st')) ∧
        b = decide (n = 1 ∨ Nat.Prime n) ∧ CacheInv st' ∧ Grows st₂ st' ∧
        NewOnly n st₂ st' ∧
        (Nat.sqrt n < st₂.known_primes_contiguous.getLastD 0 →
          st'.known_primes_contiguous = st₂.known_primes_contiguous)) :
    ∃ fuel b st', (∀ f, fuel ≤ f → trialLoop f n ii st = some (b, st')) ∧
      b = decide (n = 1 ∨ Nat.Prime n) ∧ CacheInv st' ∧ Grows st st' ∧
      NewOnly n st st' ∧
      (Nat.sqrt n < st₂.known_primes_contiguous.getLastD 0 →
        st'.known_primes_contiguous = st₂.known_primes_contiguous) := by
  obtain ⟨M, hMp, hM11, hkpc₂, hlast₂, hlastD₂⟩ := hinv₂.canonical
  have hp_mem : p ∈ st₂.known_primes_contiguous := List.getElem?_mem hg
  have hp_prime : Nat.Prime p := (mem_primesUpTo.1 (hkpc₂ ▸ hp_mem)).1
  have hp2 : 2 ≤ p := hp_prime.two_le
  by_cases hdvd : n % p = 0
  · have hpdvd : p ∣ n := Nat.dvd_of_mod_eq_zero hdvd
    have hpn : p ≠ n := fun h => hn₂ (h ▸ hinv₂.kpc_mem p hp_mem)
    have hbc : ¬ (n = 1 ∨ Nat.Prime n) := by
      rintro (rfl | hnp)
      · have := Nat.le_of_dvd one_pos hpdvd
        omega
      · rcases hnp.eq_one_or_self_of_dvd p hpdvd with h | h
        · omega
        · exact hpn h
    refine ⟨fuelE + 1, false, st₂, ?_, by simp [hbc], hinv₂, hGrow, ?_, fun _ => rfl⟩
    · intro f hf
      obtain ⟨g, rfl⟩ : ∃ g, f = g + 1 := ⟨f - 1, by omega⟩
      exact trialLoop_succ_dvd (hE g (by omega)) hg hdvd
    · intro x hx
      rcases hNew x hx with h | ⟨h1, h2⟩
      · exact Or.inl h
      · exact Or.inr (Or.inl ⟨h1, h2⟩)
  · have hpnd : ¬ p ∣ n := fun hd => hdvd (Nat.eq_zero_of_dvd_of_lt hd |> fun _ => by
      exact absurd (Nat.mod_eq_zero_of_dvd hd) hdvd)
    by_cases hlt : n < p ^ 2
    · have hnd : ∀ q, Nat.Prime q → q < p → ¬ q ∣ n := by
        have hg' : (primesUpTo M)[ii]? = some p := by
          rw [← hkpc₂]
          exact hg
        exact scan_covers hg'
          (fun j hj r hr => (hscan₂ j hj r (by rw [hkpc₂]; exact hr)).1)
      have hprime : n = 1 ∨ Nat.Prime n := one_or_prime hnd hpnd hlt
      refine ⟨fuelE + 1, true, add_known_prime st₂ n, ?_, (decide_eq_true hprime).symm, ?_,
        Grows_trans hGrow ⟨⟨[], List.append_nil _⟩, Finset.subset_insert _ _⟩, ?_, fun _ => rfl⟩
      · intro f hf
        obtain ⟨g, rfl⟩ : ∃ g, f = g + 1 := ⟨f - 1, by omega⟩
        exact trialLoop_succ_true (hE g (by omega)) hg hdvd hlt
      · refine ⟨?_, hinv₂.kpc_eq, ?_⟩
        · intro x hx
          rcases Finset.mem_insert.1 hx with rfl | hx'
          · exact hprime
          · exact hinv₂.set_ok x hx'
        · intro x hx
          exact Finset.mem_insert_of_mem (hinv₂.kpc_mem x hx)
      · intro x hx
        rcases Finset.mem_insert.1 hx with rfl | hx'
        · rcases hprime with h1 | hp'
          · exact Or.inr (Or.inr ⟨h1, h1⟩)
          · exact Or.inr (Or.inl ⟨hp', le_refl _⟩)
        · rcases hNew x hx' with h | ⟨h1, h2⟩
          · exact Or.inl h
          · exact Or.inr (Or.inl ⟨h1, h2⟩)
    · have hple : p ^ 2 ≤ n := by omega
      obtain ⟨fuel₁, b, st', hrun, hb, hinv', hgrow', hnew', hpre'⟩ := hrec hpnd hple
      refine ⟨max fuelE fuel₁ + 1, b, st', ?_, hb, hinv', Grows_trans hGrow hgrow', ?_, hpre'⟩
      · intro f hf
        obtain ⟨g, rfl⟩ : ∃ g, f = g + 1 := ⟨f - 1, by omega⟩
        rw [trialLoop_succ_step (hE g (by omega)) hg hdvd hlt]
        exact hrun g (by omega)
      · intro x hx
        rcases hnew' x hx with h | h | h
        · rcases hNew x h with h' | ⟨h1, h2⟩
          · exact Or.inl h'
          · exact Or.inr (Or.inl ⟨h1, h2⟩)
        · exact Or.inr (Or.inl h)
        · exact Or.inr (Or.inr h)

/-- The loop of `is_prime n` started at index `ii`, by induction on how far
`ii` still is from the index of the first prime exceeding `sqrt n`. -/
lemma trialLoop_spec {n : ℕ} (IH : ∀ k, k < n → IsPrimeSpec k) :
    ∀ μ ii st, CacheInv st → ii ≤ st.known_primes_contiguous.length →
      n ∉ st.known_primes →
      (∀ j, j < ii → ∀ r, st.known_primes_contiguous[j]? = some r →
        ¬ r ∣ n ∧ r ^ 2 ≤ n) →
      Nat.sqrt n + 2 - ii ≤ μ →
      ∃ fuel b st', (∀ f, fuel ≤ f → trialLoop f n ii st = some (b, st')) ∧
        b = decide (n = 1 ∨ Nat.Prime n) ∧ CacheInv st' ∧ Grows st st' ∧
        NewOnly n st st' ∧
        (Nat.sqrt n < st.known_primes_contiguous.getLastD 0 →
          st'.known_primes_contiguous = st.known_primes_contiguous) := by
  intro μ
  induction μ using Nat.strong_induction_on with
  | _ μ ihμ =>
    intro ii st hinv hii hn hscan hμ
    obtain ⟨P, hPp, hP11, hkpc, hlastP, hlastD⟩ := hinv.canonical
    by_cases hlen : ii < st.known_primes_contiguous.length
    · have hnotlt : ¬ st.known_primes_contiguous.length < ii + 1 := by omega
      have hE : ∀ f, 1 ≤ f → extendLoop f none none 1 ii st = some (some 1, st) := by
        intro f hf
        obtain ⟨g, rfl⟩ : ∃ g, f = g + 1 := ⟨f - 1, by omega⟩
        exact extendLoop_succ_notlt hnotlt
      obtain ⟨p, hg⟩ : ∃ p, st.known_primes_contiguous[ii]? = some p :=
        ⟨_, List.getElem?_eq_getElem hlen⟩
      have hp_ge : ii + 2 ≤ p := by
        refine sorted_get_ge ?_ ?_ ii p hg
        · rw [hkpc]
          exact primesUpTo_pairwise P
        · intro x hx
          rw [hkpc] at hx
          exact (mem_primesUpTo.1 hx).1.two_le
      refine trialLoop_step hE hinv hg (Grows_refl st) (fun x hx => Or.inl hx) hn hscan ?_
      intro hpnd hple
      have hpsqrt : p ≤ Nat.sqrt n := Nat.le_sqrt.2 (by rw [← pow_two]; exact hple)
      refine ihμ (μ - 1) (by omega) (ii + 1) st hinv (by omega) hn ?_ (by omega)
      intro j hj r hr
      rcases Nat.lt_or_ge j ii with h | h
      · exact hscan j h r hr
      · have : j = ii := by omega
        subst this
        rw [hg] at hr
        cases hr
        exact ⟨hpnd, hple⟩
    · have hiieq : ii = st.known_primes_contiguous.length := by omega
      have h11mem : (11 : ℕ) ∈ st.known_primes_contiguous := by
        rw [hkpc]
        exact mem_primesUpTo.2 ⟨by norm_num, hP11⟩
      have hlen0 : 0 < st.known_primes_contiguous.length :=
        List.length_pos.2 (fun he => by rw [he] at h11mem; exact List.not_mem_nil _ h11mem)
      have hPidx : st.known_primes_contiguous[st.known_primes_contiguous.length - 1]? =
          some P := by
        rw [← List.getLast?_eq_getElem?]
        exact hlastP
      have hPfacts := hscan (st.known_primes_contiguous.length - 1) (by omega) P hPidx
      have hPsqn : P ^ 2 ≤ n := hPfacts.2
      have hn121 : 121 ≤ n := le_trans (by nlinarith) hPsqn
      have hq2P : nextPrime P ≤ 2 * P := nextPrime_le_two_mul (by omega)
      have hqn : nextPrime P < n := by nlinarith
      have Hip : ∀ k, k ≤ 2 * P → IsPrimeSpec k := by
        intro k hk
        refine IH k ?_
        nlinarith
      have hbound : ∀ x, P < x → x ≤ nextPrime P → finished none none x none = false :=
        fun x _ _ => rfl
      have hPodd : Odd P := hPp.odd_of_ne_two (by omega)
      have hPq : P < nextPrime P := nextPrime_gt P
      have hqodd : Odd (nextPrime P) := (nextPrime_prime P).odd_of_ne_two (by omega)
      have hc0 : P + 2 ≤ nextPrime P := odd_add_two_le hPodd hqodd hPq
      obtain ⟨fuelG, st₁, hrunG, hinv₁, hpre₁, hsub₁, hnew₁⟩ :=
        growLoop_scan hPp hP11 Hip none none hbound (nextPrime P - (P + 2)) (P + 2) st hinv
          hkpc (by omega) hc0
          (by obtain ⟨x, hx⟩ := hPodd; exact ⟨x + 1, by omega⟩) (le_refl _)
      have hlen₁ : st₁.known_primes_contiguous.length = ii := by
        rw [hpre₁, hiieq]
      have hkpc₂ : (set_contiguous st₁ (st₁.known_primes_contiguous ++ [nextPrime P])
          ).known_primes_contiguous = primesUpTo (nextPrime P) := by
        show st₁.known_primes_contiguous ++ [nextPrime P] = primesUpTo (nextPrime P)
        rw [hpre₁, hkpc]
        exact primesUpTo_append_nextPrime hPp
      set st₂ := set_contiguous st₁ (st₁.known_primes_contiguous ++ [nextPrime P]) with hst₂
      have hE : ∀ f, fuelG + 2 ≤ f → extendLoop f none none 1 ii st =
          some (some (nextPrime P), st₂) := by
        intro f hf
        obtain ⟨g, rfl⟩ : ∃ g, f = g + 1 := ⟨f - 1, by omega⟩
        rw [extendLoop_succ_grow_found (by omega) hlastP (finished_none_none _ _)
          (hrunG g (by omega))]
        obtain ⟨g', rfl⟩ : ∃ g', g = g' + 1 := ⟨g - 1, by omega⟩
        apply extendLoop_succ_notlt
        show ¬ (st₁.known_primes_contiguous ++ [nextPrime P]).length < ii + 1
        rw [List.length_append, hlen₁]
        simp
      have hg₂ : st₂.known_primes_contiguous[ii]? = some (nextPrime P) := by
        show (st₁.known_primes_contiguous ++ [nextPrime P])[ii]? = some (nextPrime P)
        rw [← hlen₁]
        exact List.getElem?_concat_length _ _
      have hinv₂ : CacheInv st₂ := by
        refine ⟨?_, ⟨nextPrime P, by omega, hkpc₂⟩, ?_⟩
        · intro x hx
          rcases Finset.mem_union.1 hx with h | h
          · exact hinv₁.set_ok x h
          · rw [List.mem_toFinset, List.mem_append] at h
            rcases h with h | h
            · rw [hpre₁, hkpc] at h
              exact Or.inr (mem_primesUpTo.1 h).1
            · rw [List.mem_singleton] at h
              subst h
              exact Or.inr (nextPrime_prime P)
        · intro x hx
          exact Finset.mem_union_right _ (List.mem_toFinset.2 hx)
      have hGrow₂ : Grows st st₂ := by
        refine ⟨⟨[nextPrime P], ?_⟩, ?_⟩
        · show st.known_primes_contiguous ++ [nextPrime P] =
            st₁.known_primes_contiguous ++ [nextPrime P]
          rw [hpre₁]
        · intro x hx
          exact Finset.mem_union_left _ (hsub₁ hx)
      have hNew₂ : ∀ x ∈ st₂.known_primes,
          x ∈ st.known_primes ∨ (Nat.Prime x ∧ x ≤ n) := by
        intro x hx
        rcases Finset.mem_union.1 hx with h | h
        · rcases hnew₁ x h with h' | ⟨h1, h2⟩
          · exact Or.inl h'
          · exact Or.inr ⟨h1, by omega⟩
        · rw [List.mem_toFinset, List.mem_append] at h
          rcases h with h | h
          · rw [hpre₁, hkpc] at h
            obtain ⟨h1, h2⟩ := mem_primesUpTo.1 h
            exact Or.inr ⟨h1, by nlinarith⟩
          · rw [List.mem_singleton] at h
            subst h
            exact Or.inr ⟨nextPrime_prime P, by omega⟩
      have hn₂ : n ∉ st₂.known_primes := by
        intro hx
        rcases Finset.mem_union.1 hx with h | h
        · rcases hnew₁ n h with h' | ⟨_, h2⟩
          · exact hn h'
          · omega
        · rw [List.mem_toFinset, List.mem_append] at h
          rcases h with h | h
          · rw [hpre₁, hkpc] at h
            have := (mem_primesUpTo.1 h).2
            nlinarith
          · rw [List.mem_singleton] at h
            omega
      have hscan₂ : ∀ j, j < ii → ∀ r, st₂.known_primes_contiguous[j]? = some r →
          ¬ r ∣ n ∧ r ^ 2 ≤ n := by
        intro j hj r hr
        have : (st₁.known_primes_contiguous ++ [nextPrime P])[j]? =
            st₁.known_primes_contiguous[j]? :=
          List.getElem?_append_left (by omega)
        refine hscan j (by omega) r ?_
        rw [← hpre₁]
        rw [← this]
        exact hr
      have hrec : ¬ (nextPrime P) ∣ n → (nextPrime P) ^ 2 ≤ n →
          ∃ fuel b st', (∀ f, fuel ≤ f → trialLoop f n (ii + 1) st₂ = some (b, st')) ∧
            b = decide (n = 1 ∨ Nat.Prime n) ∧ CacheInv st' ∧ Grows st₂ st' ∧
            NewOnly n st₂ st' ∧
            (Nat.sqrt n < st₂.known_primes_contiguous.getLastD 0 →
              st'.known_primes_contiguous = st₂.known_primes_contiguous) := by
        intro hpnd hple
        have hqsqrt : nextPrime P ≤ Nat.sqrt n := Nat.le_sqrt.2 (by rw [← pow_two]; exact hple)
        have hq_ge : ii + 2 ≤ nextPrime P := by
          refine sorted_get_ge ?_ ?_ ii (nextPrime P) hg₂
          · rw [hkpc₂]
            exact primesUpTo_pairwise _
          · intro x hx
            rw [hkpc₂] at hx
            exact (mem_primesUpTo.1 hx).1.two_le
        refine ihμ (μ - 1) (by omega) (ii + 1) st₂ hinv₂ ?_ hn₂ ?_ (by omega)
        · show ii + 1 ≤ (st₁.known_primes_contiguous ++ [nextPrime P]).length
          rw [List.length_append, hlen₁]
          simp
        · intro j hj r hr
          rcases Nat.lt_or_ge j ii with h | h
          · exact hscan₂ j h r hr
          · have : j = ii := by omega
            subst this
            rw [hg₂] at hr
            cases hr
            exact ⟨hpnd, hple⟩
      obtain ⟨fuel, b, st', h1, h2, h3, h4, h5, _⟩ :=
        trialLoop_step hE hinv₂ hg₂ hGrow₂ hNew₂ hn₂ hscan₂ hrec
      refine ⟨fuel, b, st', h1, h2, h3, h4, h5, ?_⟩
      intro hc
      exfalso
      rw [hlastD] at hc
      have : P ≤ Nat.sqrt n := Nat.le_sqrt.2 (by rw [← pow_two]; exact hPsqn)
      omega

/-! ## Index bookkeeping for bounded iteration -/

lemma finished_value_entry (v c ii : ℕ) :
    finished (some v) none c (some ii) = decide (v < c) := by
  simp [finished]

lemma finished_value_at (v x : ℕ) : finished (some v) none x none = decide (v < x) := by
  simp [finished]

lemma finished_count_entry (k c ii : ℕ) :
    finished none (some k) c (some ii) = decide (k ≤ ii) := by
  simp [finished]

lemma finished_count_at (k x : ℕ) : finished none (some k) x none = false := rfl

lemma primesUpTo_eq_of_no_prime {a b : ℕ} (hab : a ≤ b)
    (h : ∀ x, Nat.Prime x → a < x → b < x) : primesUpTo b = primesUpTo a := by
  refine sorted_eq_of_mem_iff (primesUpTo_pairwise b) (primesUpTo_pairwise a) (fun x => ?_)
  rw [mem_primesUpTo, mem_primesUpTo]
  constructor
  · rintro ⟨hx, hxb⟩
    refine ⟨hx, ?_⟩
    by_contra hxa
    push_neg at hxa
    exact absurd hxb (by have := h x hx hxa; omega)
  · rintro ⟨hx, hxa⟩
    exact ⟨hx, le_trans hxa hab⟩

lemma primesUpTo_len_le {P v : ℕ} (hvq : v < nextPrime P) :
    (primesUpTo v).length ≤ (primesUpTo P).length := by
  rcases le_or_lt v P with h | h
  · obtain ⟨t, ht⟩ := primesUpTo_mono h
    rw [← ht, List.length_append]
    omega
  · have heq : primesUpTo v = primesUpTo P :=
      primesUpTo_eq_of_no_prime (le_of_lt h)
        (fun x hx hPx => by have := nextPrime_min hPx hx; omega)
    rw [heq]

lemma primesUpTo_index_agree {a b ii p : ℕ} (hab : a ≤ b)
    (h : (primesUpTo a)[ii]? = some p) : (primesUpTo b)[ii]? = some p := by
  obtain ⟨t, ht⟩ := primesUpTo_mono hab
  obtain ⟨hlen, hval⟩ := List.getElem?_eq_some.1 h
  rw [← ht]
  rw [List.getElem?_append_left hlen]
  exact h

lemma sorted_index_unique {l : List ℕ} (hs : l.Pairwise (· < ·)) {i j p : ℕ}
    (hi : l[i]? = some p) (hj : l[j]? = some p) : i = j := by
  obtain ⟨hli, hvi⟩ := List.getElem?_eq_some.1 hi
  obtain ⟨hlj, hvj⟩ := List.getElem?_eq_some.1 hj
  by_contra hne
  rcases Nat.lt_or_ge i j with h | h
  · have := List.pairwise_iff_getElem.1 hs i j hli hlj h
    omega
  · have hij : j < i := by omega
    have := List.pairwise_iff_getElem.1 hs j i hlj hli hij
    omega

lemma primesUpTo_index_transfer {P v ii p : ℕ} (h : (primesUpTo P)[ii]? = some p)
    (hpv : p ≤ v) : (primesUpTo v)[ii]? = some p := by
  rcases le_or_lt P v with hPv | hvP
  · exact primesUpTo_index_agree hPv h
  · have hp_mem : p ∈ primesUpTo P := List.getElem?_mem h
    have hp_prime : Nat.Prime p := (mem_primesUpTo.1 hp_mem).1
    have hpv_mem : p ∈ primesUpTo v := mem_primesUpTo.2 ⟨hp_prime, hpv⟩
    obtain ⟨j, hj, hgetj⟩ := List.mem_iff_getElem.1 hpv_mem
    have hjq : (primesUpTo v)[j]? = some p := by
      rw [List.getElem?_eq_getElem hj, hgetj]
    have hup : (primesUpTo P)[j]? = some p :=
      primesUpTo_index_agree (le_of_lt hvP) hjq
    have : j = ii := sorted_index_unique (primesUpTo_pairwise P) hup h
    rw [← this]
    exact hjq

lemma Grows_getElem {st st' : PrimeState} (h : Grows st st') {ii p : ℕ}
    (hg : st.known_primes_contiguous[ii]? = some p) :
    st'.known_primes_contiguous[ii]? = some p := by
  obtain ⟨⟨t, ht⟩, _⟩ := h
  obtain ⟨hlen, _⟩ := List.getElem?_eq_some.1 hg
  rw [← ht, List.getElem?_append_left hlen]
  exact hg

lemma finished_some (v x : ℕ) (mn : Option ℕ) :
    finished (some v) mn x none = decide (v < x) := by
  cases mn <;> simp [finished]

/-- Terminal step of the cut scan: the value bound fires on `c + 2`. -/
lemma growLoop_cut_terminal {P v : ℕ} (hPp : Nat.Prime P) (hP11 : 11 ≤ P)
    (Hip : ∀ k, k ≤ 2 * P → IsPrimeSpec k) (mn : Option ℕ) (hvq : v < nextPrime P)
    {c : ℕ} {st : PrimeState} (hinv : CacheInv st)
    (hkpc : st.known_primes_contiguous = primesUpTo P)
    (hPc : P < c) (hcv : c ≤ v) (hterm : v < c + 2) :
    ∃ fuel st₁, (∀ f, fuel ≤ f → growLoop f (some v) mn c st = some (none, st₁)) ∧
      CacheInv st₁ ∧ st₁.known_primes_contiguous = st.known_primes_contiguous ∧
      st.known_primes ⊆ st₁.known_primes ∧
      (∀ x ∈ st₁.known_primes, x ∈ st.known_primes ∨ Nat.Prime x) := by
  have hq2P : nextPrime P ≤ 2 * P := nextPrime_le_two_mul (by omega)
  have hPsq : Nat.sqrt c < P := by
    rw [Nat.sqrt_lt']
    nlinarith [hP11]
  have hcnp : ¬ Nat.Prime c := fun hc => absurd (nextPrime_min hPc hc) (by omega)
  obtain ⟨fuelip, b, st₁, hrun, hb, hinv₁, hgrow₁, hnew₁, hpre₁⟩ :=
    Hip c (by omega) st hinv
  have hbf : b = false := by
    rw [hb, decide_eq_false_iff_not]
    rintro (h | h)
    · omega
    · exact hcnp h
  subst hbf
  have hlastD : st.known_primes_contiguous.getLastD 0 = P := by
    rw [hkpc, List.getLastD_eq_getLast?, primesUpTo_getLast_self hPp hP11]
    rfl
  have hpre : st₁.known_primes_contiguous = st.known_primes_contiguous := by
    apply hpre₁
    rw [hlastD]
    exact hPsq
  have hfin : finished (some v) mn (c + 2) none = true := by
    rw [finished_some]
    exact decide_eq_true (by omega)
  refine ⟨fuelip + 1, st₁, ?_, hinv₁, hpre, hgrow₁.2, ?_⟩
  · intro f hf
    obtain ⟨g, rfl⟩ : ∃ g, f = g + 1 := ⟨f - 1, by omega⟩
    rw [growLoop_succ_false (hrun g (by omega)), hfin]
    simp
  · intro x hx
    rcases hnew₁ x hx with h | ⟨h1, _⟩ | ⟨_, h2⟩
    · exact Or.inl h
    · exact Or.inr h1
    · omega

/-- The cut variant of the candidate scan: a value bound `v` below the next
prime stops the generator mid-scan, mutating nothing but the membership set
(by primes only). -/
lemma growLoop_scan_cut {P v : ℕ} (hPp : Nat.Prime P) (hP11 : 11 ≤ P)
    (Hip : ∀ k, k ≤ 2 * P → IsPrimeSpec k) (mn : Option ℕ)
    (hvq : v < nextPrime P) :
    ∀ d c st, CacheInv st → st.known_primes_contiguous = primesUpTo P →
      P < c → c ≤ v → Odd c → v - c ≤ d →
      ∃ fuel st₁,
        (∀ f, fuel ≤ f → growLoop f (some v) mn c st = some (none, st₁)) ∧
        CacheInv st₁ ∧ st₁.known_primes_contiguous = st.known_primes_contiguous ∧
        st.known_primes ⊆ st₁.known_primes ∧
        (∀ x ∈ st₁.known_primes, x ∈ st.known_primes ∨ Nat.Prime x) := by
  have hq2P : nextPrime P ≤ 2 * P := nextPrime_le_two_mul (by omega)
  have hPsq : ∀ x, x ≤ 2 * P → Nat.sqrt x < P := by
    intro x hx
    rw [Nat.sqrt_lt']
    have : 2 * P < P ^ 2 := by nlinarith [hP11]
    omega
  intro d
  induction d with
  | zero =>
    intro c st hinv hkpc hPc hcv hodd hd
    exact growLoop_cut_terminal hPp hP11 Hip mn hvq hinv hkpc hPc hcv (by omega)
  | succ d ihd =>
    intro c st hinv hkpc hPc hcv hodd hd
    by_cases hterm : v < c + 2
    · exact growLoop_cut_terminal hPp hP11 Hip mn hvq hinv hkpc hPc hcv hterm
    · push_neg at hterm
      have hcnp : ¬ Nat.Prime c := fun hc => absurd (nextPrime_min hPc hc) (by omega)
      obtain ⟨fuelip, b, st₁', hrun, hb, hinv₁, hgrow₁, hnew₁, hpre₁⟩ :=
        Hip c (by omega) st hinv
      have hbf : b = false := by
        rw [hb, decide_eq_false_iff_not]
        rintro (h | h)
        · omega
        · exact hcnp h
      subst hbf
      have hlastD : st.known_primes_contiguous.getLastD 0 = P := by
        rw [hkpc, List.getLastD_eq_getLast?, primesUpTo_getLast_self hPp hP11]
        rfl
      have hpre : st₁'.known_primes_contiguous = st.known_primes_contiguous := by
        apply hpre₁
        rw [hlastD]
        exact hPsq c (by omega)
      have hfin : finished (some v) mn (c + 2) none = false := by
        rw [finished_some]
        rw [decide_eq_false_iff_not]
        omega
      obtain ⟨fuel₂, st₁, hrun₂, hinv₂, hpre₂, hsub₂, hnew₂⟩ :=
        ihd (c + 2) st₁' hinv₁ (by rw [hpre, hkpc]) (by omega) hterm
          (by obtain ⟨x, hx⟩ := hodd; exact ⟨x + 1, by omega⟩) (by omega)
      refine ⟨max fuelip fuel₂ + 1, st₁, ?_, hinv₂, by rw [hpre₂, hpre], ?_, ?_⟩
      · intro f hf
        obtain ⟨g, rfl⟩ : ∃ g, f = g + 1 := ⟨f - 1, by omega⟩
        rw [growLoop_succ_false (hrun g (by omega)), hfin]
        simp only [Bool.false_eq_true, if_false]
        exact hrun₂ g (by omega)
      · exact Finset.Subset.trans hgrow₁.2 hsub₂
      · intro x hx
        rcases hnew₂ x hx with h | h
        · rcases hnew₁ x h with h' | ⟨h1', _⟩ | ⟨_, h2'⟩
          · exact Or.inl h'
          · exact Or.inr h1'
          · omega
        · exact Or.inr h

/-- Extending the cache by exactly one prime: when index `ii` is just past
the cached list and no value bound fires at or below the next prime, the
inner while of lines 70-78 appends `nextPrime P` and stops. -/
lemma extendLoop_one {mv mn : Option ℕ} {st : PrimeState} {ii P : ℕ}
    (hinv : CacheInv st) (hkpc : st.known_primes_contiguous = primesUpTo P)
    (hPp : Nat.Prime P) (hP11 : 11 ≤ P)
    (hii : ii = st.known_primes_contiguous.length)
    (Hip : ∀ k, k ≤ 2 * P → IsPrimeSpec k)
    (hbound : ∀ x, P < x → x ≤ nextPrime P → finished mv mn x none = false) :
    ∀ c, ∃ fuel st₂,
      (∀ f, fuel ≤ f → extendLoop f mv mn c ii st = some (some (nextPrime P), st₂)) ∧
      CacheInv st₂ ∧
      st₂.known_primes_contiguous = st.known_primes_contiguous ++ [nextPrime P] ∧
      st₂.known_primes_contiguous = primesUpTo (nextPrime P) ∧
      st₂.known_primes_contiguous.length = ii + 1 ∧
      st₂.known_primes_contiguous[ii]? = some (nextPrime P) ∧
      Grows st st₂ ∧
      (∀ x ∈ st₂.known_primes,
        x ∈ st.known_primes ∨ (Nat.Prime x ∧ x ≤ nextPrime P)) := by
  intro c
  have hlastP : st.known_primes_contiguous.getLast? = some P := by
    rw [hkpc]
    exact primesUpTo_getLast_self hPp hP11
  have hPodd : Odd P := hPp.odd_of_ne_two (by omega)
  have hPq : P < nextPrime P := nextPrime_gt P
  have hqodd : Odd (nextPrime P) := (nextPrime_prime P).odd_of_ne_two (by omega)
  have hc0 : P + 2 ≤ nextPrime P := odd_add_two_le hPodd hqodd hPq
  obtain ⟨fuelG, st₁, hrunG, hinv₁, hpre₁, hsub₁, hnew₁⟩ :=
    growLoop_scan hPp hP11 Hip mv mn hbound (nextPrime P - (P + 2)) (P + 2) st hinv
      hkpc (by omega) hc0
      (by obtain ⟨x, hx⟩ := hPodd; exact ⟨x + 1, by omega⟩) (le_refl _)
  have hlen₁ : st₁.known_primes_contiguous.length = ii := by
    rw [hpre₁, hii]
  have hkpc₂ : st₁.known_primes_contiguous ++ [nextPrime P] = primesUpTo (nextPrime P) := by
    rw [hpre₁, hkpc]
    exact primesUpTo_append_nextPrime hPp
  refine ⟨fuelG + 2, set_contiguous st₁ (st₁.known_primes_contiguous ++ [nextPrime P]),
    ?_, ?_, ?_, hkpc₂, ?_, ?_, ?_, ?_⟩
  · intro f hf
    obtain ⟨g, rfl⟩ : ∃ g, f = g + 1 := ⟨f - 1, by omega⟩
    rw [extendLoop_succ_grow_found (by omega) hlastP
      (hbound (P + 2) (by omega) hc0) (hrunG g (by omega))]
    obtain ⟨g', rfl⟩ : ∃ g', g = g' + 1 := ⟨g - 1, by omega⟩
    apply extendLoop_succ_notlt
    show ¬ (st₁.known_primes_contiguous ++ [nextPrime P]).length < ii + 1
    rw [List.length_append, hlen₁]
    simp
  · refine ⟨?_, ⟨nextPrime P, by omega, hkpc₂⟩, ?_⟩
    · intro x hx
      rcases Finset.mem_union.1 hx with h | h
      · exact hinv₁.set_ok x h
      · rw [List.mem_toFinset, List.mem_append] at h
        rcases h with h | h
        · rw [hpre₁, hkpc] at h
          exact Or.inr (mem_primesUpTo.1 h).1
        · rw [List.mem_singleton] at h
          subst h
          exact Or.inr (nextPrime_prime P)
    · intro x hx
      exact Finset.mem_union_right _ (List.mem_toFinset.2 hx)
  · show st₁.known_primes_contiguous ++ [nextPrime P] =
      st.known_primes_contiguous ++ [nextPrime P]
    rw [hpre₁]
  · show (st₁.known_primes_contiguous ++ [nextPrime P]).length = ii + 1
    rw [List.length_append, hlen₁]
    rfl
  · show (st₁.known_primes_contiguous ++ [nextPrime P])[ii]? = some (nextPrime P)
    rw [← hlen₁]
    exact List.getElem?_concat_length _ _
  · refine ⟨⟨[nextPrime P], ?_⟩, ?_⟩
    · show st.known_primes_contiguous ++ [nextPrime P] =
        st₁.known_primes_contiguous ++ [nextPrime P]
      rw [hpre₁]
    · intro x hx
      exact Finset.mem_union_left _ (hsub₁ hx)
  · intro x hx
    rcases Finset.mem_union.1 hx with h | h
    · rcases hnew₁ x h with h' | ⟨h1, h2⟩
      · exact Or.inl h'
      · exact Or.inr ⟨h1, h2⟩
    · rw [List.mem_toFinset, List.mem_append] at h
      rcases h with h | h
      · rw [hpre₁, hkpc] at h
        obtain ⟨h1, h2⟩ := mem_primesUpTo.1 h
        exact Or.inr ⟨h1, by omega⟩
      · rw [List.mem_singleton] at h
        subst h
        exact Or.inr ⟨nextPrime_prime P, le_refl _⟩

lemma primesUpTo_agree {a b ii pa pb : ℕ} (ha : (primesUpTo a)[ii]? = some pa)
    (hb : (primesUpTo b)[ii]? = some pb) : pa = pb := by
  rcases le_total a b with h | h
  · have := primesUpTo_index_agree h ha
    rw [hb] at this
    exact Option.some.inj this.symm
  · have := primesUpTo_index_agree h hb
    rw [ha] at this
    exact Option.some.inj this

/-- Terminal analysis of the value-bounded generator: when every prime `≤ v`
sits at an index below `ii`, the loop yields nothing more. -/
lemma iterValue_terminal {v : ℕ} (Hip : ∀ k, IsPrimeSpec k) :
    ∀ ii st c, CacheInv st → ii ≤ st.known_primes_contiguous.length → c ≤ v →
      (primesUpTo v).length ≤ ii →
      ∃ fuel st', (∀ f, fuel ≤ f → iterLoop f (some v) none c ii st = some ([], st')) ∧
        CacheInv st' ∧ Grows st st' ∧
        (∀ x ∈ st'.known_primes, x ∈ st.known_primes ∨ Nat.Prime x) := by
  intro ii st c hinv hii hcv hterm
  have hfin : finished (some v) none c (some ii) = false := by
    rw [finished_value_entry]
    rw [decide_eq_false_iff_not]
    omega
  obtain ⟨P, hPp, hP11, hkpc, hlastP, hlastD⟩ := hinv.canonical
  by_cases hlen : ii < st.known_primes_contiguous.length
  · obtain ⟨p, hg⟩ : ∃ p, st.known_primes_contiguous[ii]? = some p :=
      ⟨_, List.getElem?_eq_getElem hlen⟩
    have hgP : (primesUpTo P)[ii]? = some p := by rw [← hkpc]; exact hg
    have hvp : v < p := by
      by_contra hle
      push_neg at hle
      have := primesUpTo_index_transfer hgP hle
      obtain ⟨hl, _⟩ := List.getElem?_eq_some.1 this
      omega
    have hfin2 : finished (some v) none p none = true := by
      rw [finished_value_at]
      exact decide_eq_true hvp
    refine ⟨2, st, ?_, hinv, Grows_refl st, fun x hx => Or.inl hx⟩
    intro f hf
    obtain ⟨g, rfl⟩ : ∃ g, f = g + 1 := ⟨f - 1, by omega⟩
    have hext : extendLoop g (some v) none c ii st = some (some c, st) := by
      obtain ⟨g', rfl⟩ : ∃ g', g = g' + 1 := ⟨g - 1, by omega⟩
      exact extendLoop_succ_notlt (by omega)
    exact iterLoop_succ_fin2 hfin hext hg hfin2
  · have hiieq : ii = st.known_primes_contiguous.length := by omega
    have hvq : v < nextPrime P := by
      by_contra hle
      push_neg at hle
      have hq_at : (primesUpTo (nextPrime P))[ii]? = some (nextPrime P) := by
        have happ : primesUpTo P ++ [nextPrime P] = primesUpTo (nextPrime P) :=
          primesUpTo_append_nextPrime hPp
        have hlenP : (primesUpTo P).length = ii := by
          rw [← hkpc, ← hiieq]
        rw [← happ, ← hlenP]
        exact List.getElem?_concat_length _ _
      have := primesUpTo_index_transfer hq_at hle
      obtain ⟨hl, _⟩ := List.getElem?_eq_some.1 this
      omega
    by_cases hPv : v < P + 2
    · have hfinP : finished (some v) none (P + 2) none = true := by
        rw [finished_value_at]
        exact decide_eq_true hPv
      refine ⟨2, st, ?_, hinv, Grows_refl st, fun x hx => Or.inl hx⟩
      intro f hf
      obtain ⟨g, rfl⟩ : ∃ g, f = g + 1 := ⟨f - 1, by omega⟩
      refine iterLoop_succ_ext_cut hfin ?_
      obtain ⟨g', rfl⟩ : ∃ g', g = g' + 1 := ⟨g - 1, by omega⟩
      exact extendLoop_succ_fin (by omega) hlastP hfinP
    · push_neg at hPv
      have hPodd : Odd P := hPp.odd_of_ne_two (by omega)
      obtain ⟨fuelG, st₁, hrunG, hinv₁, hpre₁, hsub₁, hnew₁⟩ :=
        growLoop_scan_cut hPp hP11 (fun k _ => Hip k) none hvq (v - (P + 2)) (P + 2) st
          hinv hkpc (by omega) hPv
          (by obtain ⟨x, hx⟩ := hPodd; exact ⟨x + 1, by omega⟩) (le_refl _)
      have hfinP : finished (some v) none (P + 2) none = false := by
        rw [finished_value_at]
        rw [decide_eq_false_iff_not]
        omega
      refine ⟨fuelG + 2, st₁, ?_, hinv₁, ⟨⟨[], by rw [List.append_nil, hpre₁]⟩, hsub₁⟩,
        hnew₁⟩
      intro f hf
      obtain ⟨g, rfl⟩ : ∃ g, f = g + 1 := ⟨f - 1, by omega⟩
      refine iterLoop_succ_ext_cut hfin ?_
      obtain ⟨g', rfl⟩ : ∃ g', g = g' + 1 := ⟨g - 1, by omega⟩
      exact extendLoop_succ_grow_cut (by omega) hlastP hfinP (hrunG g' (by omega))

/-- The value-bounded iteration (`max_value = v`): starting at index
`ii ≤ length` with loop variable `c ≤ v`, the generator yields exactly the
primes `≤ v` from index `ii` on, in order. -/
lemma iterLoop_value_spec {v : ℕ} (Hip : ∀ k, IsPrimeSpec k) :
    ∀ d ii st c, CacheInv st → ii ≤ st.known_primes_contiguous.length → c ≤ v →
      (primesUpTo v).length - ii ≤ d →
      ∃ fuel ys st', (∀ f, fuel ≤ f → iterLoop f (some v) none c ii st = some (ys, st')) ∧
        CacheInv st' ∧ Grows st st' ∧
        (∀ x ∈ st'.known_primes, x ∈ st.known_primes ∨ Nat.Prime x) ∧
        ys = (primesUpTo v).drop ii := by
  intro d
  induction d with
  | zero =>
    intro ii st c hinv hii hcv hd
    obtain ⟨fuel, st', hrun, hinv', hgrow', hnew'⟩ :=
      iterValue_terminal Hip ii st c hinv hii hcv (by omega)
    exact ⟨fuel, [], st', hrun, hinv', hgrow', hnew',
      (List.drop_eq_nil_of_le (by omega)).symm⟩
  | succ d ihd =>
    intro ii st c hinv hii hcv hd
    by_cases hterm : (primesUpTo v).length ≤ ii
    · obtain ⟨fuel, st', hrun, hinv', hgrow', hnew'⟩ :=
        iterValue_terminal Hip ii st c hinv hii hcv hterm
      exact ⟨fuel, [], st', hrun, hinv', hgrow', hnew',
        (List.drop_eq_nil_of_le hterm).symm⟩
    · push_neg at hterm
      obtain ⟨x, hx⟩ : ∃ x, (primesUpTo v)[ii]? = some x :=
        ⟨_, List.getElem?_eq_getElem hterm⟩
      have hxv : x ≤ v := (mem_primesUpTo.1 (List.getElem?_mem hx)).2
      have hfin : finished (some v) none c (some ii) = false := by
        rw [finished_value_entry]
        rw [decide_eq_false_iff_not]
        omega
      obtain ⟨P, hPp, hP11, hkpc, hlastP, hlastD⟩ := hinv.canonical
      by_cases hlen : ii < st.known_primes_contiguous.length
      · obtain ⟨p, hg⟩ : ∃ p, st.known_primes_contiguous[ii]? = some p :=
          ⟨_, List.getElem?_eq_getElem hlen⟩
        have hgP : (primesUpTo P)[ii]? = some p := by rw [← hkpc]; exact hg
        have hpx : p = x := primesUpTo_agree hgP hx
        subst hpx
        have hfin2 : finished (some v) none p none = false := by
          rw [finished_value_at]
          rw [decide_eq_false_iff_not]
          omega
        obtain ⟨fuel₁, ys', st', hrun', hinv', hgrow', hnew', hys'⟩ :=
          ihd (ii + 1) st c hinv (by omega) hcv (by omega)
        refine ⟨max 2 fuel₁ + 1, p :: ys', st', ?_, hinv', hgrow', hnew', ?_⟩
        · intro f hf
          obtain ⟨g, rfl⟩ : ∃ g, f = g + 1 := ⟨f - 1, by omega⟩
          have hext : extendLoop g (some v) none c ii st = some (some c, st) := by
            obtain ⟨g', rfl⟩ : ∃ g', g = g' + 1 := ⟨g - 1, by omega⟩
            exact extendLoop_succ_notlt (by omega)
          exact iterLoop_succ_step_some hfin hext hg hfin2 (hrun' g (by omega))
        · rw [hys', List.drop_eq_getElem_cons hterm]
          congr 1
          obtain ⟨_, hval⟩ := List.getElem?_eq_some.1 hx
          exact hval.symm
      · have hiieq : ii = st.known_primes_contiguous.length := by omega
        have hPx : P < x := by
          by_contra hle
          push_neg at hle
          have hxmem : x ∈ primesUpTo P :=
            mem_primesUpTo.2 ⟨(mem_primesUpTo.1 (List.getElem?_mem hx)).1, hle⟩
          obtain ⟨j, hj, hgetj⟩ := List.mem_iff_getElem.1 hxmem
          have hjv : (primesUpTo v)[j]? = some x :=
            primesUpTo_index_transfer (by rw [List.getElem?_eq_getElem hj, hgetj]) hxv
          have : j = ii := sorted_index_unique (primesUpTo_pairwise v) hjv hx
          rw [← hkpc] at hj
          omega
        have hqv : nextPrime P ≤ v :=
          le_trans (nextPrime_min hPx (mem_primesUpTo.1 (List.getElem?_mem hx)).1) hxv
        have hbound : ∀ y, P < y → y ≤ nextPrime P →
            finished (some v) none y none = false := by
          intro y _ hy
          rw [finished_value_at]
          rw [decide_eq_false_iff_not]
          omega
        obtain ⟨fuelE, st₂, hE, hinv₂, hkpc₂app, hkpc₂, hlen₂, hg₂, hgrow₂, hnew₂⟩ :=
          extendLoop_one hinv hkpc hPp hP11 hiieq (fun k _ => Hip k) hbound c
        have hq_idx : (primesUpTo (nextPrime P))[ii]? = some (nextPrime P) := by
          rw [← hkpc₂]
          exact hg₂
        have hq_at : (primesUpTo v)[ii]? = some (nextPrime P) :=
          primesUpTo_index_transfer hq_idx hqv
        have hfin2 : finished (some v) none (nextPrime P) none = false := by
          rw [finished_value_at]
          rw [decide_eq_false_iff_not]
          omega
        obtain ⟨fuel₁, ys', st', hrun', hinv', hgrow', hnew', hys'⟩ :=
          ihd (ii + 1) st₂ (nextPrime P) hinv₂ (by omega) hqv (by omega)
        refine ⟨max fuelE fuel₁ + 1, nextPrime P :: ys', st', ?_,
          hinv', Grows_trans hgrow₂ hgrow', ?_, ?_⟩
        · intro f hf
          obtain ⟨g, rfl⟩ : ∃ g, f = g + 1 := ⟨f - 1, by omega⟩
          exact iterLoop_succ_step_some hfin (hE g (by omega)) hg₂ hfin2
            (hrun' g (by omega))
        · intro y hy
          rcases hnew' y hy with h | h
          · rcases hnew₂ y h with h' | ⟨h1, _⟩
            · exact Or.inl h'
            · exact Or.inr h1
          · exact Or.inr h
        · rw [hys', List.drop_eq_getElem_cons hterm]
          congr 1
          obtain ⟨_, hval⟩ := List.getElem?_eq_some.1 hq_at
          exact hval.symm

/-- The count-bounded iteration (`max_num = k`, no value bound): starting at
index `ii`, the generator yields exactly the entries at the absolute indices
`ii, …, k - 1` of the (final) contiguous list — `max_num` is an absolute end
index into the prime sequence, not a count from the start. -/
lemma iterLoop_count_spec {k : ℕ} (Hip : ∀ n, IsPrimeSpec n) :
    ∀ d ii st c, CacheInv st → ii ≤ st.known_primes_contiguous.length →
      k - ii ≤ d →
      ∃ fuel ys st',
        (∀ f, fuel ≤ f → iterLoop f none (some k) c ii st = some (ys, st')) ∧
        CacheInv st' ∧ Grows st st' ∧
        (∀ x ∈ st'.known_primes, x ∈ st.known_primes ∨ Nat.Prime x) ∧
        ys.length = k - ii ∧
        ys = (st'.known_primes_contiguous.drop ii).take (k - ii) := by
  intro d
  induction d with
  | zero =>
    intro ii st c hinv hii hd
    have hki : k ≤ ii := by omega
    have hfin : finished none (some k) c (some ii) = true := by
      rw [finished_count_entry]
      exact decide_eq_true hki
    refine ⟨1, [], st, ?_, hinv, Grows_refl st, fun x hx => Or.inl hx, ?_, ?_⟩
    · intro f hf
      obtain ⟨g, rfl⟩ : ∃ g, f = g + 1 := ⟨f - 1, by omega⟩
      exact iterLoop_succ_fin hfin
    · simp
      omega
    · rw [Nat.sub_eq_zero_of_le hki]
      simp
  | succ d ihd =>
    intro ii st c hinv hii hd
    by_cases hki : k ≤ ii
    · have hfin : finished none (some k) c (some ii) = true := by
        rw [finished_count_entry]
        exact decide_eq_true hki
      refine ⟨1, [], st, ?_, hinv, Grows_refl st, fun x hx => Or.inl hx, ?_, ?_⟩
      · intro f hf
        obtain ⟨g, rfl⟩ : ∃ g, f = g + 1 := ⟨f - 1, by omega⟩
        exact iterLoop_succ_fin hfin
      · simp
        omega
      · rw [Nat.sub_eq_zero_of_le hki]
        simp
    · push_neg at hki
      have hfin : finished none (some k) c (some ii) = false := by
        rw [finished_count_entry]
        rw [decide_eq_false_iff_not]
        omega
      by_cases hlen : ii < st.known_primes_contiguous.length
      · obtain ⟨p, hg⟩ : ∃ p, st.known_primes_contiguous[ii]? = some p :=
          ⟨_, List.getElem?_eq_getElem hlen⟩
        obtain ⟨fuel₁, ys', st', hrun', hinv', hgrow', hnew', hlen', hys'⟩ :=
          ihd (ii + 1) st c hinv (by omega) (by omega)
        refine ⟨max 2 fuel₁ + 1, p :: ys', st', ?_, hinv', hgrow', hnew', ?_, ?_⟩
        · intro f hf
          obtain ⟨g, rfl⟩ : ∃ g, f = g + 1 := ⟨f - 1, by omega⟩
          refine iterLoop_succ_step_some hfin ?_ hg (finished_count_at k p)
            (hrun' g (by omega))
          obtain ⟨g', rfl⟩ : ∃ g', g = g' + 1 := ⟨g - 1, by omega⟩
          exact extendLoop_succ_notlt (by omega)
        · simp only [List.length_cons, hlen']
          omega
        · have hg' : st'.known_primes_contiguous[ii]? = some p := Grows_getElem hgrow' hg
          obtain ⟨hlt', hval⟩ := List.getElem?_eq_some.1 hg'
          rw [List.drop_eq_getElem_cons hlt', hval]
          have hk1 : k - ii = (k - (ii + 1)) + 1 := by omega
          rw [hk1, List.take_succ_cons, ← hys']
      · have hiieq : ii = st.known_primes_contiguous.length := by omega
        obtain ⟨P, hPp, hP11, hkpc, hlastP, hlastD⟩ := hinv.canonical
        have hbound : ∀ x, P < x → x ≤ nextPrime P →
            finished none (some k) x none = false := fun x _ _ => finished_count_at k x
        obtain ⟨fuelE, st₂, hE, hinv₂, hkpc₂app, hkpc₂, hlen₂, hg₂, hgrow₂, hnew₂⟩ :=
          extendLoop_one hinv hkpc hPp hP11 hiieq (fun n _ => Hip n) hbound c
        obtain ⟨fuel₁, ys', st', hrun', hinv', hgrow', hnew', hlen', hys'⟩ :=
          ihd (ii + 1) st₂ (nextPrime P) hinv₂ (by omega) (by omega)
        refine ⟨max fuelE fuel₁ + 1, nextPrime P :: ys', st', ?_, hinv',
          Grows_trans hgrow₂ hgrow', ?_, ?_, ?_⟩
        · intro f hf
          obtain ⟨g, rfl⟩ : ∃ g, f = g + 1 := ⟨f - 1, by omega⟩
          exact iterLoop_succ_step_some hfin (hE g (by omega)) hg₂
            (finished_count_at k _) (hrun' g (by omega))
        · intro y hy
          rcases hnew' y hy with h | h
          · rcases hnew₂ y h with h' | ⟨h1, _⟩
            · exact Or.inl h'
            · exact Or.inr h1
          · exact Or.inr h
        · simp only [List.length_cons, hlen']
          omega
        · have hg' : st'.known_primes_contiguous[ii]? = some (nextPrime P) :=
            Grows_getElem hgrow' hg₂
          obtain ⟨hlt', hval⟩ := List.getElem?_eq_some.1 hg'
          rw [List.drop_eq_getElem_cons hlt', hval]
          have hk1 : k - ii = (k - (ii + 1)) + 1 := by omega
          rw [hk1, List.take_succ_cons, ← hys']

/-- Every `is_prime` call on a valid cache behaves as specified (strong
induction on the argument: candidates tested while growing the sieve are
strictly smaller). -/
lemma isPrimeSpec_all : ∀ n, IsPrimeSpec n := by
  intro n
  induction n using Nat.strong_induction_on with
  | _ n IH =>
    intro st hinv
    by_cases hmem : n ∈ st.known_primes
    · refine ⟨1, true, st, ?_, ?_, hinv, Grows_refl st, fun x hx => Or.inl hx, fun _ => rfl⟩
      · intro f hf
        obtain ⟨g, rfl⟩ : ∃ g, f = g + 1 := ⟨f - 1, by omega⟩
        exact is_prime_succ_mem hmem
      · exact (decide_eq_true (hinv.set_ok n hmem)).symm
    · obtain ⟨fuel, b, st', hrun, hb, hinv', hgrow, hnew, hpre⟩ :=
        trialLoop_spec IH (Nat.sqrt n + 2) 0 st hinv (Nat.zero_le _) hmem
          (by intro j hj; omega) (by omega)
      refine ⟨fuel + 1, b, st', ?_, hb, hinv', hgrow, hnew, hpre⟩
      intro f hf
      obtain ⟨g, rfl⟩ : ∃ g, f = g + 1 := ⟨f - 1, by omega⟩
      rw [is_prime_succ_notmem hmem]
      exact hrun g (by omega)

/-! ## Specification of the factoriser -/

/-- Behavioural specification of `prime_factors n` for `n ≥ 1`: the result is
the canonical ascending prime factorisation (`[1]` for `n = 1`). -/
def PFSpec (n : ℕ) : Prop :=
  ∀ st, CacheInv st → ∃ fuel fs st',
    (∀ f, fuel ≤ f → prime_factors f n st = some (fs, st')) ∧
    fs = (if n = 1 then [1] else n.primeFactorsList) ∧
    CacheInv st' ∧ Grows st st' ∧
    (∀ x ∈ st'.known_primes, x ∈ st.known_primes ∨ Nat.Prime x)

lemma primeFactorsList_cons {n : ℕ} (hn : 2 ≤ n) :
    n.primeFactorsList = n.minFac :: (n / n.minFac).primeFactorsList := by
  obtain ⟨m, rfl⟩ : ∃ m, n = m + 2 := ⟨n - 2, by omega⟩
  exact Nat.primeFactorsList_add_two m

lemma pf_nodiv_not {n : ℕ} (hn : 1 ≤ n)
    (hnd : ∀ q, Nat.Prime q → q ≤ Nat.sqrt n → ¬ q ∣ n) :
    ¬ (2 ≤ n ∧ n.minFac ^ 2 ≤ n) := by
  rintro ⟨h2, hsq⟩
  have hmf := Nat.minFac_prime (show n ≠ 1 by omega)
  have hle : n.minFac ≤ Nat.sqrt n := Nat.le_sqrt.2 (by rw [← pow_two]; exact hsq)
  exact hnd _ hmf hle (Nat.minFac_dvd n)

/-- Terminal analysis of the factoriser's scan: once every prime up to
`sqrt n` lies below index `ii` (and none of the scanned primes divides `n`),
the bounded generator stops and no prime up to `sqrt n` divides `n`. -/
lemma pfLoop_terminal {n : ℕ} (Hip : ∀ k, IsPrimeSpec k) :
    ∀ ii st c, CacheInv st → ii ≤ st.known_primes_contiguous.length →
      c ≤ Nat.sqrt n →
      (∀ j, j < ii → ∀ r, st.known_primes_contiguous[j]? = some r → ¬ r ∣ n) →
      (primesUpTo (Nat.sqrt n)).length ≤ ii →
      ∃ fuel st', (∀ f, fuel ≤ f → pfLoop f n c ii st = some ([], st')) ∧
        CacheInv st' ∧ Grows st st' ∧
        (∀ x ∈ st'.known_primes, x ∈ st.known_primes ∨ Nat.Prime x) ∧
        (∀ q, Nat.Prime q → q ≤ Nat.sqrt n → ¬ q ∣ n) := by
  intro ii st c hinv hii hcv hscan hterm
  have hfin : finished (some (Nat.sqrt n)) none c (some ii) = false := by
    rw [finished_value_entry]
    rw [decide_eq_false_iff_not]
    omega
  obtain ⟨P, hPp, hP11, hkpc, hlastP, hlastD⟩ := hinv.canonical
  by_cases hlen : ii < st.known_primes_contiguous.length
  · obtain ⟨p, hg⟩ : ∃ p, st.known_primes_contiguous[ii]? = some p :=
      ⟨_, List.getElem?_eq_getElem hlen⟩
    have hgP : (primesUpTo P)[ii]? = some p := by rw [← hkpc]; exact hg
    have hvp : Nat.sqrt n < p := by
      by_contra hle
      push_neg at hle
      have := primesUpTo_index_transfer hgP hle
      obtain ⟨hl, _⟩ := List.getElem?_eq_some.1 this
      omega
    have hfin2 : finished (some (Nat.sqrt n)) none p none = true := by
      rw [finished_value_at]
      exact decide_eq_true hvp
    have hcov : ∀ q, Nat.Prime q → q ≤ Nat.sqrt n → ¬ q ∣ n := by
      intro q hq hle
      exact scan_covers hgP (fun j hj r hr => hscan j hj r (by rw [hkpc]; exact hr))
        q hq (by omega)
    refine ⟨2, st, ?_, hinv, Grows_refl st, fun x hx => Or.inl hx, hcov⟩
    intro f hf
    obtain ⟨g, rfl⟩ : ∃ g, f = g + 1 := ⟨f - 1, by omega⟩
    have hext : extendLoop g (some (Nat.sqrt n)) none c ii st = some (some c, st) := by
      obtain ⟨g', rfl⟩ : ∃ g', g = g' + 1 := ⟨g - 1, by omega⟩
      exact extendLoop_succ_notlt (by omega)
    exact pfLoop_succ_fin2 hfin hext hg hfin2
  · have hiieq : ii = st.known_primes_contiguous.length := by omega
    have hqsn : Nat.sqrt n < nextPrime P := by
      by_contra hle
      push_neg at hle
      have happ := primesUpTo_append_nextPrime hPp
      have hlenP : (primesUpTo P).length = ii := by rw [← hkpc, ← hiieq]
      have hq_idx : (primesUpTo (nextPrime P))[ii]? = some (nextPrime P) := by
        rw [← happ, ← hlenP]
        exact List.getElem?_concat_length _ _
      have hq_at := primesUpTo_index_transfer hq_idx hle
      obtain ⟨hl, _⟩ := List.getElem?_eq_some.1 hq_at
      omega
    have hcovP : ∀ q, Nat.Prime q → q ≤ Nat.sqrt n → q ≤ P := by
      intro q hq hle
      by_contra hgt
      push_neg at hgt
      have := nextPrime_min hgt hq
      omega
    have hcov : ∀ q, Nat.Prime q → q ≤ Nat.sqrt n → ¬ q ∣ n := by
      intro q hq hle
      have hqmem : q ∈ primesUpTo P := mem_primesUpTo.2 ⟨hq, hcovP q hq hle⟩
      obtain ⟨j, hj, hgetj⟩ := List.mem_iff_getElem.1 hqmem
      have hjii : j < ii := by
        rw [hiieq, hkpc]
        exact hj
      refine hscan j hjii q ?_
      rw [hkpc, List.getElem?_eq_getElem hj, hgetj]
    by_cases hPv : Nat.sqrt n < P + 2
    · have hfinP : finished (some (Nat.sqrt n)) none (P + 2) none = true := by
        rw [finished_value_at]
        exact decide_eq_true hPv
      refine ⟨2, st, ?_, hinv, Grows_refl st, fun x hx => Or.inl hx, hcov⟩
      intro f hf
      obtain ⟨g, rfl⟩ : ∃ g, f = g + 1 := ⟨f - 1, by omega⟩
      refine pfLoop_succ_ext_cut hfin ?_
      obtain ⟨g', rfl⟩ : ∃ g', g = g' + 1 := ⟨g - 1, by omega⟩
      exact extendLoop_succ_fin (by omega) hlastP hfinP
    · push_neg at hPv
      have hPodd : Odd P := hPp.odd_of_ne_two (by omega)
      obtain ⟨fuelG, st₁, hrunG, hinv₁, hpre₁, hsub₁, hnew₁⟩ :=
        growLoop_scan_cut hPp hP11 (fun k _ => Hip k) none hqsn
          (Nat.sqrt n - (P + 2)) (P + 2) st hinv hkpc (by omega) hPv
          (by obtain ⟨x, hx⟩ := hPodd; exact ⟨x + 1, by omega⟩) (le_refl _)
      have hfinP : finished (some (Nat.sqrt n)) none (P + 2) none = false := by
        rw [finished_value_at]
        rw [decide_eq_false_iff_not]
        omega
      refine ⟨fuelG + 2, st₁, ?_, hinv₁,
        ⟨⟨[], by rw [List.append_nil, hpre₁]⟩, hsub₁⟩, hnew₁, hcov⟩
      intro f hf
      obtain ⟨g, rfl⟩ : ∃ g, f = g + 1 := ⟨f - 1, by omega⟩
      refine pfLoop_succ_ext_cut hfin ?_
      obtain ⟨g', rfl⟩ : ∃ g', g = g' + 1 := ⟨g - 1, by omega⟩
      exact extendLoop_succ_grow_cut (by omega) hlastP hfinP (hrunG g' (by omega))

/-- The scan of `prime_factors n` starting at index `ii`: it returns the full
factorisation of `n` when some prime up to `sqrt n` divides `n`, and `[]`
otherwise. -/
lemma pfLoop_spec {n : ℕ} (hn1 : 1 ≤ n) (Hip : ∀ k, IsPrimeSpec k)
    (IH : ∀ m, m < n → 1 ≤ m → PFSpec m) :
    ∀ d ii st c, CacheInv st → ii ≤ st.known_primes_contiguous.length →
      c ≤ Nat.sqrt n →
      (∀ j, j < ii → ∀ r, st.known_primes_contiguous[j]? = some r → ¬ r ∣ n) →
      (primesUpTo (Nat.sqrt n)).length - ii ≤ d →
      ∃ fuel res st', (∀ f, fuel ≤ f → pfLoop f n c ii st = some (res, st')) ∧
        CacheInv st' ∧ Grows st st' ∧
        (∀ x ∈ st'.known_primes, x ∈ st.known_primes ∨ Nat.Prime x) ∧
        res = (if 2 ≤ n ∧ n.minFac ^ 2 ≤ n then n.primeFactorsList else []) := by
  intro d
  induction d with
  | zero =>
    intro ii st c hinv hii hcv hscan hd
    obtain ⟨fuel, st', hrun, hinv', hgrow', hnew', hcov⟩ :=
      pfLoop_terminal Hip ii st c hinv hii hcv hscan (by omega)
    exact ⟨fuel, [], st', hrun, hinv', hgrow', hnew',
      (if_neg (pf_nodiv_not hn1 hcov)).symm⟩
  | succ d ihd =>
    intro ii st c hinv hii hcv hscan hd
    by_cases hterm : (primesUpTo (Nat.sqrt n)).length ≤ ii
    · obtain ⟨fuel, st', hrun, hinv', hgrow', hnew', hcov⟩ :=
        pfLoop_terminal Hip ii st c hinv hii hcv hscan hterm
      exact ⟨fuel, [], st', hrun, hinv', hgrow', hnew',
        (if_neg (pf_nodiv_not hn1 hcov)).symm⟩
    · push_neg at hterm
      obtain ⟨x, hx⟩ : ∃ x, (primesUpTo (Nat.sqrt n))[ii]? = some x :=
        ⟨_, List.getElem?_eq_getElem hterm⟩
      have hxsn : x ≤ Nat.sqrt n := (mem_primesUpTo.1 (List.getElem?_mem hx)).2
      have hfin : finished (some (Nat.sqrt n)) none c (some ii) = false := by
        rw [finished_value_entry]
        rw [decide_eq_false_iff_not]
        omega
      obtain ⟨P, hPp, hP11, hkpc, hlastP, hlastD⟩ := hinv.canonical
      by_cases hlen : ii < st.known_primes_contiguous.length
      · obtain ⟨p, hg⟩ : ∃ p, st.known_primes_contiguous[ii]? = some p :=
          ⟨_, List.getElem?_eq_getElem hlen⟩
        have hgP : (primesUpTo P)[ii]? = some p := by rw [← hkpc]; exact hg
        have hpx : p = x := primesUpTo_agree hgP hx
        subst hpx
        have hp_prime : Nat.Prime p := (mem_primesUpTo.1 (List.getElem?_mem hgP)).1
        have hfin2 : finished (some (Nat.sqrt n)) none p none = false := by
          rw [finished_value_at]
          rw [decide_eq_false_iff_not]
          omega
        have hext : ∀ g, 1 ≤ g →
            extendLoop g (some (Nat.sqrt n)) none c ii st = some (some c, st) := by
          intro g hg'
          obtain ⟨g', rfl⟩ : ∃ g', g = g' + 1 := ⟨g - 1, by omega⟩
          exact extendLoop_succ_notlt (by omega)
        by_cases hdvd : n % p = 0
        · have hpdvd : p ∣ n := Nat.dvd_of_mod_eq_zero hdvd
          have hn2 : 2 ≤ n := le_trans hp_prime.two_le (Nat.le_of_dvd (by omega) hpdvd)
          have hpmin : p = n.minFac := by
            have h1 : n.minFac ≤ p := Nat.minFac_le_of_dvd hp_prime.two_le hpdvd
            by_contra hne
            have h2 : n.minFac < p := lt_of_le_of_ne h1 (fun he => hne he.symm)
            exact scan_covers hgP
              (fun j hj r hr => hscan j hj r (by rw [hkpc]; exact hr))
              n.minFac (Nat.minFac_prime (by omega)) h2 (Nat.minFac_dvd n)
          have hp2 : 2 ≤ p := hp_prime.two_le
          have hple : p * p ≤ n := Nat.le_sqrt.1 hxsn
          have hnp2 : 2 ≤ n / p :=
            le_trans hp_prime.two_le ((Nat.le_div_iff_mul_le (by omega)).2 hple)
          have hnplt : n / p < n := Nat.div_lt_self (by omega) (by omega)
          obtain ⟨fuelR, fs, st'', hrunR, hfs, hinvR, hgrowR, hnewR⟩ :=
            IH (n / p) hnplt (by omega) st hinv
          have hfs' : fs = (n / p).primeFactorsList := by
            rw [hfs, if_neg (by omega)]
          refine ⟨max 2 fuelR + 1, p :: fs, st'', ?_, hinvR, hgrowR, hnewR, ?_⟩
          · intro f hf
            obtain ⟨g, rfl⟩ : ∃ g, f = g + 1 := ⟨f - 1, by omega⟩
            exact pfLoop_succ_dvd_some hfin (hext g (by omega)) hg hfin2 hdvd
              (hrunR g (by omega))
          · rw [if_pos ⟨hn2, by rw [← hpmin, pow_two]; exact hple⟩]
            rw [primeFactorsList_cons hn2, ← hpmin, hfs']
        · have hscan' : ∀ j, j < ii + 1 → ∀ r,
              st.known_primes_contiguous[j]? = some r → ¬ r ∣ n := by
            intro j hj r hr
            rcases Nat.lt_or_ge j ii with h | h
            · exact hscan j h r hr
            · have : j = ii := by omega
              subst this
              rw [hg] at hr
              cases hr
              exact fun hd => hdvd (Nat.mod_eq_zero_of_dvd hd)
          obtain ⟨fuel₁, res, st', hrun', hinv', hgrow', hnew', hres⟩ :=
            ihd (ii + 1) st c hinv (by omega) hcv hscan' (by omega)
          refine ⟨max 2 fuel₁ + 1, res, st', ?_, hinv', hgrow', hnew', hres⟩
          intro f hf
          obtain ⟨g, rfl⟩ : ∃ g, f = g + 1 := ⟨f - 1, by omega⟩
          rw [pfLoop_succ_step hfin (hext g (by omega)) hg hfin2 hdvd]
          exact hrun' g (by omega)
      · have hiieq : ii = st.known_primes_contiguous.length := by omega
        have hPx : P < x := by
          by_contra hle
          push_neg at hle
          have hxmem : x ∈ primesUpTo P :=
            mem_primesUpTo.2 ⟨(mem_primesUpTo.1 (List.getElem?_mem hx)).1, hle⟩
          obtain ⟨j, hj, hgetj⟩ := List.mem_iff_getElem.1 hxmem
          have hjv : (primesUpTo (Nat.sqrt n))[j]? = some x :=
            primesUpTo_index_transfer (by rw [List.getElem?_eq_getElem hj, hgetj]) hxsn
          have : j = ii := sorted_index_unique (primesUpTo_pairwise (Nat.sqrt n)) hjv hx
          rw [← hkpc] at hj
          omega
        have hqsn : nextPrime P ≤ Nat.sqrt n :=
          le_trans (nextPrime_min hPx (mem_primesUpTo.1 (List.getElem?_mem hx)).1) hxsn
        have hbound : ∀ y, P < y → y ≤ nextPrime P →
            finished (some (Nat.sqrt n)) none y none = false := by
          intro y _ hy
          rw [finished_value_at]
          rw [decide_eq_false_iff_not]
          omega
        obtain ⟨fuelE, st₂, hE, hinv₂, hkpc₂app, hkpc₂, hlen₂, hg₂, hgrow₂, hnew₂⟩ :=
          extendLoop_one hinv hkpc hPp hP11 hiieq (fun k _ => Hip k) hbound c
        have hq_prime : Nat.Prime (nextPrime P) := nextPrime_prime P
        have hfin2 : finished (some (Nat.sqrt n)) none (nextPrime P) none = false := by
          rw [finished_value_at]
          rw [decide_eq_false_iff_not]
          omega
        have hscan₂ : ∀ j, j < ii → ∀ r, st₂.known_primes_contiguous[j]? = some r →
            ¬ r ∣ n := by
          intro j hj r hr
          rw [hkpc₂app] at hr
          rw [List.getElem?_append_left (by omega)] at hr
          exact hscan j hj r hr
        by_cases hdvd : n % nextPrime P = 0
        · have hpdvd : nextPrime P ∣ n := Nat.dvd_of_mod_eq_zero hdvd
          have hn2 : 2 ≤ n := le_trans hq_prime.two_le (Nat.le_of_dvd (by omega) hpdvd)
          have hgq : (primesUpTo (nextPrime P))[ii]? = some (nextPrime P) := by
            rw [← hkpc₂]
            exact hg₂
          have hpmin : nextPrime P = n.minFac := by
            have h1 : n.minFac ≤ nextPrime P :=
              Nat.minFac_le_of_dvd hq_prime.two_le hpdvd
            by_contra hne
            have h2 : n.minFac < nextPrime P := lt_of_le_of_ne h1 (fun he => hne he.symm)
            exact scan_covers hgq
              (fun j hj r hr => hscan₂ j hj r (by rw [hkpc₂]; exact hr))
              n.minFac (Nat.minFac_prime (by omega)) h2 (Nat.minFac_dvd n)
          have hq2 : 2 ≤ nextPrime P := hq_prime.two_le
          have hple : nextPrime P * nextPrime P ≤ n := Nat.le_sqrt.1 hqsn
          have hnp2 : 2 ≤ n / nextPrime P :=
            le_trans hq_prime.two_le ((Nat.le_div_iff_mul_le (by omega)).2 hple)
          have hnplt : n / nextPrime P < n := Nat.div_lt_self (by omega) (by omega)
          obtain ⟨fuelR, fs, st'', hrunR, hfs, hinvR, hgrowR, hnewR⟩ :=
            IH (n / nextPrime P) hnplt (by omega) st₂ hinv₂
          have hfs' : fs = (n / nextPrime P).primeFactorsList := by
            rw [hfs, if_neg (by omega)]
          refine ⟨max fuelE fuelR + 1, nextPrime P :: fs, st'', ?_,
            hinvR, Grows_trans hgrow₂ hgrowR, ?_, ?_⟩
          · intro f hf
            obtain ⟨g, rfl⟩ : ∃ g, f = g + 1 := ⟨f - 1, by omega⟩
            exact pfLoop_succ_dvd_some hfin (hE g (by omega)) hg₂ hfin2 hdvd
              (hrunR g (by omega))
          · intro y hy
            rcases hnewR y hy with h | h
            · rcases hnew₂ y h with h' | ⟨h1, _⟩
              · exact Or.inl h'
              · exact Or.inr h1
            · exact Or.inr h
          · rw [if_pos ⟨hn2, by rw [← hpmin, pow_two]; exact hple⟩]
            rw [primeFactorsList_cons hn2, ← hpmin, hfs']
        · have hscan₂' : ∀ j, j < ii + 1 → ∀ r,
              st₂.known_primes_contiguous[j]? = some r → ¬ r ∣ n := by
            intro j hj r hr
            rcases Nat.lt_or_ge j ii with h | h
            · exact hscan₂ j h r hr
            · have : j = ii := by omega
              subst this
              rw [hg₂] at hr
              cases hr
              exact fun hd => hdvd (Nat.mod_eq_zero_of_dvd hd)
          obtain ⟨fuel₁, res, st', hrun', hinv', hgrow', hnew', hres⟩ :=
            ihd (ii + 1) st₂ (nextPrime P) hinv₂ (by omega) hqsn hscan₂' (by omega)
          refine ⟨max fuelE fuel₁ + 1, res, st', ?_, hinv',
            Grows_trans hgrow₂ hgrow', ?_, hres⟩
          · intro f hf
            obtain ⟨g, rfl⟩ : ∃ g, f = g + 1 := ⟨f - 1, by omega⟩
            rw [pfLoop_succ_step hfin (hE g (by omega)) hg₂ hfin2 hdvd]
            exact hrun' g (by omega)
          · intro y hy
            rcases hnew' y hy with h | h
            · rcases hnew₂ y h with h' | ⟨h1, _⟩
              · exact Or.inl h'
              · exact Or.inr h1
            · exact Or.inr h

/-- Every `prime_factors` call on a valid cache with argument `≥ 1` computes
the canonical factorisation. -/
lemma pfSpec_all : ∀ n, 1 ≤ n → PFSpec n := by
  intro n
  induction n using Nat.strong_induction_on with
  | _ n IH =>
    intro hn1 st hinv
    have hsn1 : 1 ≤ Nat.sqrt n := Nat.le_sqrt.2 (by omega)
    obtain ⟨fuel, res, st', hrun, hinv', hgrow', hnew', hres⟩ :=
      pfLoop_spec hn1 isPrimeSpec_all (fun m hm hm1 => IH m hm hm1)
        ((primesUpTo (Nat.sqrt n)).length) 0 st 1 hinv (Nat.zero_le _) hsn1
        (by intro j hj; omega) (by omega)
    by_cases hcond : 2 ≤ n ∧ n.minFac ^ 2 ≤ n
    · have hres' : res = n.primeFactorsList := by rw [hres, if_pos hcond]
      have hne : ¬ res.isEmpty := by
        rw [hres', List.isEmpty_iff, Nat.primeFactorsList_eq_nil]
        omega
      refine ⟨fuel + 1, n.primeFactorsList, st', ?_, ?_, hinv', hgrow', hnew'⟩
      · intro f hf
        obtain ⟨g, rfl⟩ : ∃ g, f = g + 1 := ⟨f - 1, by omega⟩
        rw [prime_factors_succ_some (hrun g (by omega))]
        rw [if_neg hne, hres']
      · rw [if_neg (by omega)]
    · have hres' : res = [] := by rw [hres, if_neg hcond]
      refine ⟨fuel + 1, (if n = 1 then [1] else n.primeFactorsList), st', ?_, rfl,
        hinv', hgrow', hnew'⟩
      intro f hf
      obtain ⟨g, rfl⟩ : ∃ g, f = g + 1 := ⟨f - 1, by omega⟩
      rw [prime_factors_succ_some (hrun g (by omega))]
      rw [hres']
      by_cases h1 : n = 1
      · subst h1
        rfl
      · have hprime : Nat.Prime n := by
          by_contra hnp
          exact hcond ⟨by omega, Nat.minFac_sq_le_self (by omega) hnp⟩
        rw [if_neg h1]
        simp [Nat.primeFactorsList_prime hprime]

/-! ## Soundness for arbitrary fuel

Any run that returns a result returns the specified one (fuel monotonicity
makes results independent of the fuel), so the invariant is preserved by
every completed call, whatever fuel it was given. -/

lemma is_prime_det {fuel n : ℕ} {st : PrimeState} {r : Bool × PrimeState}
    (h : is_prime fuel n st = some r) {N : ℕ} {b : Bool} {st' : PrimeState}
    (hspec : ∀ f, N ≤ f → is_prime f n st = some (b, st')) : r = (b, st') := by
  have h1 := is_prime_mono (le_max_left fuel N) h
  rw [hspec (max fuel N) (le_max_right fuel N)] at h1
  exact (Option.some.inj h1).symm

lemma growLoop_det {fuel : ℕ} {mv mn : Option ℕ} {c : ℕ} {st : PrimeState}
    {r : Option ℕ × PrimeState} (h : growLoop fuel mv mn c st = some r)
    {N : ℕ} {r' : Option ℕ × PrimeState}
    (hspec : ∀ f, N ≤ f → growLoop f mv mn c st = some r') : r = r' := by
  have h1 := (core_mono fuel (max fuel N) (le_max_left fuel N)).1 _ _ _ _ _ h
  rw [hspec (max fuel N) (le_max_right fuel N)] at h1
  exact (Option.some.inj h1).symm

lemma finished_none_mn (mn : Option ℕ) (x : ℕ) : finished none mn x none = false := by
  cases mn <;> rfl

/-- Any completed `is_prime` run preserves the invariant and only adds
primes (or `1`, for the argument `1`) to the membership set. -/
lemma is_prime_sound {fuel n : ℕ} {st : PrimeState} {b : Bool} {st' : PrimeState}
    (hinv : CacheInv st) (h : is_prime fuel n st = some (b, st')) :
    b = decide (n = 1 ∨ Nat.Prime n) ∧ CacheInv st' ∧ Grows st st' ∧
    NewOnly n st st' := by
  obtain ⟨N, b₀, st₀, hrun, hb, hinv', hgrow, hnew, _⟩ := isPrimeSpec_all n st hinv
  have := is_prime_det h hrun
  rw [Prod.ext_iff] at this
  obtain ⟨h1, h2⟩ := this
  subst h1
  subst h2
  exact ⟨hb, hinv', hgrow, hnew⟩

/-- Any completed `extendLoop` run from a valid cache preserves the
invariant, grows the caches by primes only, and (when it does not end the
generator) makes index `ii` available. -/
lemma extendLoop_sound : ∀ fuel {mv mn : Option ℕ} {c ii : ℕ} {st : PrimeState}
    {r : Option ℕ × PrimeState}, CacheInv st →
    ii ≤ st.known_primes_contiguous.length →
    extendLoop fuel mv mn c ii st = some r →
    CacheInv r.2 ∧ Grows st r.2 ∧
    (∀ x ∈ r.2.known_primes, x ∈ st.known_primes ∨ Nat.Prime x) ∧
    (∀ c', r.1 = some c' → ii < r.2.known_primes_contiguous.length) := by
  intro fuel
  induction fuel with
  | zero =>
    intro mv mn c ii st r _ _ h
    simp [extendLoop] at h
  | succ g ih =>
    intro mv mn c ii st r hinv hii h
    by_cases hlen : st.known_primes_contiguous.length < ii + 1
    · obtain ⟨P, hPp, hP11, hkpc, hlastP, hlastD⟩ := hinv.canonical
      have hiieq : ii = st.known_primes_contiguous.length := by omega
      by_cases hfin : finished mv mn (P + 2) none = true
      · rw [extendLoop_succ_fin hlen hlastP hfin] at h
        cases Option.some.inj h
        exact ⟨hinv, Grows_refl st, fun x hx => Or.inl hx, fun c' hc' => by cases hc'⟩
      · simp only [Bool.not_eq_true] at hfin
        cases hg : growLoop g mv mn (P + 2) st with
        | none =>
          rw [extendLoop_succ_grow_none hlen hlastP hfin hg] at h
          exact absurd h (by simp)
        | some gres =>
          have hPodd : Odd P := hPp.odd_of_ne_two (by omega)
          have hPq : P < nextPrime P := nextPrime_gt P
          have hqodd : Odd (nextPrime P) := (nextPrime_prime P).odd_of_ne_two (by omega)
          have hc0 : P + 2 ≤ nextPrime P := odd_add_two_le hPodd hqodd hPq
          have hoddP2 : Odd (P + 2) := by
            obtain ⟨x, hx⟩ := hPodd
            exact ⟨x + 1, by omega⟩
          -- identify the scan's outcome by comparing with the spec runs
          have hscan_case :
              (gres = (some (nextPrime P), gres.2) ∧ CacheInv gres.2 ∧
                gres.2.known_primes_contiguous = st.known_primes_contiguous ∧
                st.known_primes ⊆ gres.2.known_primes ∧
                (∀ x ∈ gres.2.known_primes,
                  x ∈ st.known_primes ∨ (Nat.Prime x ∧ x ≤ nextPrime P))) ∨
              (gres = (none, gres.2) ∧ CacheInv gres.2 ∧
                gres.2.known_primes_contiguous = st.known_primes_contiguous ∧
                st.known_primes ⊆ gres.2.known_primes ∧
                (∀ x ∈ gres.2.known_primes, x ∈ st.known_primes ∨ Nat.Prime x)) := by
            cases mv with
            | none =>
              -- no value bound: the scan finds the next prime
              have hbound : ∀ x, P < x → x ≤ nextPrime P →
                  finished none mn x none = false := fun x _ _ => finished_none_mn mn x
              obtain ⟨N, st₁, hrunG, hinv₁, hpre₁, hsub₁, hnew₁⟩ :=
                growLoop_scan hPp hP11 (fun k _ => isPrimeSpec_all k) none mn hbound
                  (nextPrime P - (P + 2)) (P + 2) st hinv hkpc (by omega) hc0 hoddP2
                  (le_refl _)
              have := growLoop_det hg hrunG
              subst this
              exact Or.inl ⟨rfl, hinv₁, hpre₁, hsub₁, hnew₁⟩
            | some v =>
              by_cases hqv : nextPrime P ≤ v
              · have hbound : ∀ x, P < x → x ≤ nextPrime P →
                    finished (some v) mn x none = false := by
                  intro x _ hx
                  rw [finished_some]
                  rw [decide_eq_false_iff_not]
                  omega
                obtain ⟨N, st₁, hrunG, hinv₁, hpre₁, hsub₁, hnew₁⟩ :=
                  growLoop_scan hPp hP11 (fun k _ => isPrimeSpec_all k) (some v) mn
                    hbound (nextPrime P - (P + 2)) (P + 2) st hinv hkpc (by omega)
                    hc0 hoddP2 (le_refl _)
                have := growLoop_det hg hrunG
                subst this
                refine Or.inl ⟨rfl, hinv₁, hpre₁, hsub₁, hnew₁⟩
              · push_neg at hqv
                have hPv : P + 2 ≤ v := by
                  by_contra hPv
                  push_neg at hPv
                  rw [finished_some] at hfin
                  rw [decide_eq_false_iff_not] at hfin
                  omega
                obtain ⟨N, st₁, hrunG, hinv₁, hpre₁, hsub₁, hnew₁⟩ :=
                  growLoop_scan_cut hPp hP11 (fun k _ => isPrimeSpec_all k) mn hqv
                    (v - (P + 2)) (P + 2) st hinv hkpc (by omega) hPv hoddP2 (le_refl _)
                have := growLoop_det hg hrunG
                subst this
                exact Or.inr ⟨rfl, hinv₁, hpre₁, hsub₁, hnew₁⟩
          rcases hscan_case with ⟨hform, hinv₁, hpre₁, hsub₁, hnew₁⟩ |
            ⟨hform, hinv₁, hpre₁, hsub₁, hnew₁⟩
          · -- found: append and recurse
            obtain ⟨oc, st₁⟩ := gres
            simp only [Prod.mk.injEq] at hform
            rw [hform.1] at hg
            rw [extendLoop_succ_grow_found hlen hlastP hfin hg] at h
            set st₂ := set_contiguous st₁ (st₁.known_primes_contiguous ++ [nextPrime P])
              with hst₂
            have hkpc₂ : st₂.known_primes_contiguous = primesUpTo (nextPrime P) := by
              show st₁.known_primes_contiguous ++ [nextPrime P] = _
              rw [hpre₁, hkpc]
              exact primesUpTo_append_nextPrime hPp
            have hlen₂ : st₂.known_primes_contiguous.length = ii + 1 := by
              show (st₁.known_primes_contiguous ++ [nextPrime P]).length = ii + 1
              rw [List.length_append, hpre₁, ← hiieq]
              rfl
            have hinv₂ : CacheInv st₂ := by
              refine ⟨?_, ⟨nextPrime P, by omega, hkpc₂⟩, ?_⟩
              · intro x hx
                rcases Finset.mem_union.1 hx with hx' | hx'
                · exact hinv₁.set_ok x hx'
                · rw [List.mem_toFinset, List.mem_append] at hx'
                  rcases hx' with hx' | hx'
                  · rw [hpre₁, hkpc] at hx'
                    exact Or.inr (mem_primesUpTo.1 hx').1
                  · rw [List.mem_singleton] at hx'
                    subst hx'
                    exact Or.inr (nextPrime_prime P)
              · intro x hx
                exact Finset.mem_union_right _ (List.mem_toFinset.2 hx)
            obtain ⟨hinv', hgrow', hnew', hidx'⟩ := ih hinv₂ (by omega) h
            refine ⟨hinv', ?_, ?_, fun c' hc' => hidx' c' hc'⟩
            · refine Grows_trans ⟨⟨[nextPrime P], ?_⟩, ?_⟩ hgrow'
              · show st.known_primes_contiguous ++ [nextPrime P] =
                  st₁.known_primes_contiguous ++ [nextPrime P]
                rw [hpre₁]
              · intro x hx
                exact Finset.mem_union_left _ (hsub₁ hx)
            · intro x hx
              rcases hnew' x hx with hx' | hx'
              · rcases Finset.mem_union.1 hx' with hx'' | hx''
                · rcases hnew₁ x hx'' with h' | ⟨h1, _⟩
                  · exact Or.inl h'
                  · exact Or.inr h1
                · rw [List.mem_toFinset, List.mem_append] at hx''
                  rcases hx'' with hx'' | hx''
                  · rw [hpre₁, hkpc] at hx''
                    exact Or.inr (mem_primesUpTo.1 hx'').1
                  · rw [List.mem_singleton] at hx''
                    subst hx''
                    exact Or.inr (nextPrime_prime P)
              · exact Or.inr hx'
          · -- cut: the generator ends here
            obtain ⟨oc, st₁⟩ := gres
            simp only [Prod.mk.injEq] at hform
            rw [hform.1] at hg
            rw [extendLoop_succ_grow_cut hlen hlastP hfin hg] at h
            cases Option.some.inj h
            exact ⟨hinv₁, ⟨⟨[], by rw [List.append_nil, hpre₁]⟩, hsub₁⟩, hnew₁,
              fun c' hc' => by cases hc'⟩
    · rw [extendLoop_succ_notlt hlen] at h
      cases Option.some.inj h
      refine ⟨hinv, Grows_refl st, fun x hx => Or.inl hx, fun c' _ => ?_⟩
      show ii < st.known_primes_contiguous.length
      omega

/-- Any completed bounded-or-not `iterLoop` run preserves the invariant. -/
lemma iterLoop_sound : ∀ fuel {mv mn : Option ℕ} {c ii : ℕ} {st : PrimeState}
    {ys : List ℕ} {st' : PrimeState}, CacheInv st →
    ii ≤ st.known_primes_contiguous.length →
    iterLoop fuel mv mn c ii st = some (ys, st') →
    CacheInv st' ∧ Grows st st' ∧
    (∀ x ∈ st'.known_primes, x ∈ st.known_primes ∨ Nat.Prime x) := by
  intro fuel
  induction fuel with
  | zero =>
    intro mv mn c ii st ys st' _ _ h
    simp [iterLoop] at h
  | succ g ih =>
    intro mv mn c ii st ys st' hinv hii h
    by_cases hfin : finished mv mn c (some ii) = true
    · rw [iterLoop_succ_fin hfin] at h
      obtain ⟨h1, h2⟩ := Prod.mk.injEq _ _ _ _ ▸ Option.some.inj h
      subst h2
      exact ⟨hinv, Grows_refl st, fun x hx => Or.inl hx⟩
    · simp only [Bool.not_eq_true] at hfin
      cases he : extendLoop g mv mn c ii st with
      | none =>
        rw [iterLoop_succ_ext_none hfin he] at h
        exact absurd h (by simp)
      | some eres =>
        obtain ⟨oc, st₂⟩ := eres
        obtain ⟨hinv₂x, hgrow₂x, hnew₂x, hidx₂⟩ := extendLoop_sound g hinv hii he
        have hinv₂ : CacheInv st₂ := hinv₂x
        have hgrow₂ : Grows st st₂ := hgrow₂x
        have hnew₂ : ∀ x ∈ st₂.known_primes, x ∈ st.known_primes ∨ Nat.Prime x := hnew₂x
        cases oc with
        | none =>
          rw [iterLoop_succ_ext_cut hfin he] at h
          obtain ⟨h1, h2⟩ := Prod.mk.injEq _ _ _ _ ▸ Option.some.inj h
          subst h2
          exact ⟨hinv₂, hgrow₂, hnew₂⟩
        | some c' =>
          have hlen₂ : ii < st₂.known_primes_contiguous.length := hidx₂ c' rfl
          cases hget : st₂.known_primes_contiguous[ii]? with
          | none =>
            rw [iterLoop_succ_get_none hfin he hget] at h
            exact absurd h (by simp)
          | some next_p =>
            by_cases hfin2 : finished mv mn next_p none = true
            · rw [iterLoop_succ_fin2 hfin he hget hfin2] at h
              obtain ⟨h1, h2⟩ := Prod.mk.injEq _ _ _ _ ▸ Option.some.inj h
              subst h2
              exact ⟨hinv₂, hgrow₂, hnew₂⟩
            · simp only [Bool.not_eq_true] at hfin2
              cases hrec : iterLoop g mv mn c' (ii + 1) st₂ with
              | none =>
                rw [iterLoop_succ_step_none hfin he hget hfin2 hrec] at h
                exact absurd h (by simp)
              | some rres =>
                obtain ⟨ys', st''⟩ := rres
                rw [iterLoop_succ_step_some hfin he hget hfin2 hrec] at h
                obtain ⟨h1, h2⟩ := Prod.mk.injEq _ _ _ _ ▸ Option.some.inj h
                subst h2
                obtain ⟨hinv', hgrow', hnew'⟩ := ih hinv₂ (by omega) hrec
                refine ⟨hinv', Grows_trans hgrow₂ hgrow', ?_⟩
                intro x hx
                rcases hnew' x hx with h' | h'
                · exact hnew₂ x h'
                · exact Or.inr h'

/-! ## `are_prime`, `prime_factors` and `load` -/

/-- The loop of `are_prime` tests every candidate and conjoins the verdicts. -/
lemma areLoop_spec : ∀ (cands : List ℕ) (found : Bool) (st : PrimeState), CacheInv st →
    ∃ fuel b st', (∀ f, fuel ≤ f → areLoop f cands found st = some (b, st')) ∧
      b = (!found && decide (∀ c ∈ cands, c = 1 ∨ Nat.Prime c)) ∧
      CacheInv st' ∧ Grows st st' ∧
      (∀ x ∈ st'.known_primes,
        x ∈ st.known_primes ∨ Nat.Prime x ∨ (x = 1 ∧ 1 ∈ cands)) := by
  intro cands
  induction cands with
  | nil =>
    intro found st hinv
    refine ⟨0, !found, st, ?_, by simp, hinv, Grows_refl st, fun x hx => Or.inl hx⟩
    intro f _
    rfl
  | cons c cs ih =>
    intro found st hinv
    obtain ⟨N, b₀, st₁, hrun, hb, hinv₁, hgrow₁, hnew₁, _⟩ := isPrimeSpec_all c st hinv
    obtain ⟨N₂, b₂, st', hrun₂, hb₂, hinv', hgrow', hnew'⟩ := ih (found || !b₀) st₁ hinv₁
    refine ⟨max N N₂, b₂, st', ?_, ?_, hinv', Grows_trans hgrow₁ hgrow', ?_⟩
    · intro f hf
      rw [areLoop_cons_some (hrun f (by omega))]
      exact hrun₂ f (by omega)
    · rw [hb₂, hb]
      by_cases h1 : c = 1 ∨ Nat.Prime c <;>
        by_cases h2 : ∀ x ∈ cs, x = 1 ∨ Nat.Prime x <;>
          cases found <;> simp [h1, h2, List.forall_mem_cons]
    · intro x hx
      rcases hnew' x hx with h | h | ⟨h1, h2⟩
      · rcases hnew₁ x h with h' | ⟨hp, _⟩ | ⟨hx1, hc1⟩
        · exact Or.inl h'
        · exact Or.inr (Or.inl hp)
        · refine Or.inr (Or.inr ⟨hx1, ?_⟩)
          rw [← hc1]
          exact List.mem_cons_self c cs
      · exact Or.inr (Or.inl h)
      · exact Or.inr (Or.inr ⟨h1, List.mem_cons_of_mem c h2⟩)

lemma are_prime_spec {cands : List ℕ} {st : PrimeState} (hinv : CacheInv st) :
    ∃ fuel b st', (∀ f, fuel ≤ f → are_prime f cands st = some (b, st')) ∧
      b = decide (∀ c ∈ cands, c = 1 ∨ Nat.Prime c) ∧
      CacheInv st' ∧ Grows st st' ∧
      (∀ x ∈ st'.known_primes,
        x ∈ st.known_primes ∨ Nat.Prime x ∨ (x = 1 ∧ 1 ∈ cands)) := by
  obtain ⟨fuel, b, st', hrun, hb, hinv', hgrow', hnew'⟩ := areLoop_spec cands false st hinv
  refine ⟨fuel, b, st', hrun, ?_, hinv', hgrow', hnew'⟩
  rw [hb]
  simp

/-- Any completed `areLoop` run preserves the invariant and adds only primes
(or `1` when `1` is among the candidates). -/
lemma areLoop_sound : ∀ (cands : List ℕ) {fuel : ℕ} {found : Bool} {st : PrimeState}
    {b : Bool} {st' : PrimeState}, CacheInv st →
    areLoop fuel cands found st = some (b, st') →
    CacheInv st' ∧ Grows st st' ∧
    (∀ x ∈ st'.known_primes,
      x ∈ st.known_primes ∨ Nat.Prime x ∨ (x = 1 ∧ 1 ∈ cands)) := by
  intro cands
  induction cands with
  | nil =>
    intro fuel found st b st' hinv h
    have h' : (some (!found, st) : Option (Bool × PrimeState)) = some (b, st') := h
    obtain ⟨h1, h2⟩ := Prod.mk.injEq _ _ _ _ ▸ Option.some.inj h'
    subst h2
    exact ⟨hinv, Grows_refl st, fun x hx => Or.inl hx⟩
  | cons c cs ih =>
    intro fuel found st b st' hinv h
    cases hip : is_prime fuel c st with
    | none =>
      rw [areLoop_cons_none hip] at h
      exact absurd h (by simp)
    | some r =>
      obtain ⟨bc, st₁⟩ := r
      rw [areLoop_cons_some hip] at h
      obtain ⟨_, hinv₁, hgrow₁, hnew₁⟩ := is_prime_sound hinv hip
      obtain ⟨hinv', hgrow', hnew'⟩ := ih hinv₁ h
      refine ⟨hinv', Grows_trans hgrow₁ hgrow', ?_⟩
      intro x hx
      rcases hnew' x hx with h' | h' | ⟨h1, h2⟩
      · rcases hnew₁ x h' with h'' | ⟨hp, _⟩ | ⟨hx1, hc1⟩
        · exact Or.inl h''
        · exact Or.inr (Or.inl hp)
        · refine Or.inr (Or.inr ⟨hx1, ?_⟩)
          rw [← hc1]
          exact List.mem_cons_self c cs
      · exact Or.inr (Or.inl h')
      · exact Or.inr (Or.inr ⟨h1, List.mem_cons_of_mem c h2⟩)

/-- Fuel monotonicity for the factoriser pair. -/
lemma pf_mono : ∀ fuel fuel', fuel ≤ fuel' →
    (∀ n c ii st r, pfLoop fuel n c ii st = some r → pfLoop fuel' n c ii st = some r) ∧
    (∀ n st r, prime_factors fuel n st = some r → prime_factors fuel' n st = some r) := by
  intro fuel
  induction fuel with
  | zero =>
    intro fuel' _
    constructor
    · intro n c ii st r h
      simp [pfLoop] at h
    · intro n st r h
      simp [prime_factors] at h
  | succ k ih =>
    intro fuel' hf
    obtain ⟨f', rfl⟩ : ∃ f', fuel' = f' + 1 := ⟨fuel' - 1, by omega⟩
    obtain ⟨mp, mf⟩ := ih f' (by omega)
    constructor
    · intro n c ii st r h
      by_cases hfin : finished (some (Nat.sqrt n)) none c (some ii) = true
      · rw [pfLoop_succ_fin hfin] at h
        rw [pfLoop_succ_fin hfin]
        exact h
      · simp only [Bool.not_eq_true] at hfin
        cases he : extendLoop k (some (Nat.sqrt n)) none c ii st with
        | none =>
          rw [pfLoop_succ_ext_none hfin he] at h
          exact absurd h (by simp)
        | some eres =>
          obtain ⟨oc, st₂⟩ := eres
          have he' := extendLoop_mono (show k ≤ f' by omega) he
          cases oc with
          | none =>
            rw [pfLoop_succ_ext_cut hfin he] at h
            rw [pfLoop_succ_ext_cut hfin he']
            exact h
          | some c' =>
            cases hget : st₂.known_primes_contiguous[ii]? with
            | none =>
              rw [pfLoop_succ_get_none hfin he hget] at h
              exact absurd h (by simp)
            | some p =>
              by_cases hfin2 : finished (some (Nat.sqrt n)) none p none = true
              · rw [pfLoop_succ_fin2 hfin he hget hfin2] at h
                rw [pfLoop_succ_fin2 hfin he' hget hfin2]
                exact h
              · simp only [Bool.not_eq_true] at hfin2
                by_cases hdvd : n % p = 0
                · cases hrec : prime_factors k (n / p) st₂ with
                  | none =>
                    rw [pfLoop_succ_dvd_none hfin he hget hfin2 hdvd hrec] at h
                    exact absurd h (by simp)
                  | some rr =>
                    obtain ⟨fs, st''⟩ := rr
                    rw [pfLoop_succ_dvd_some hfin he hget hfin2 hdvd hrec] at h
                    rw [pfLoop_succ_dvd_some hfin he' hget hfin2 hdvd
                      (mf _ _ _ hrec)]
                    exact h
                · rw [pfLoop_succ_step hfin he hget hfin2 hdvd] at h
                  rw [pfLoop_succ_step hfin he' hget hfin2 hdvd]
                  exact mp _ _ _ _ _ h
    · intro n st r h
      cases hl : pfLoop k n 1 0 st with
      | none =>
        rw [prime_factors_succ_none hl] at h
        exact absurd h (by simp)
      | some lr =>
        obtain ⟨fs, st'⟩ := lr
        rw [prime_factors_succ_some hl] at h
        rw [prime_factors_succ_some (mp _ _ _ _ _ hl)]
        exact h

lemma prime_factors_det {fuel n : ℕ} {st : PrimeState} {r : List ℕ × PrimeState}
    (h : prime_factors fuel n st = some r) {N : ℕ} {fs : List ℕ} {st' : PrimeState}
    (hspec : ∀ f, N ≤ f → prime_factors f n st = some (fs, st')) : r = (fs, st') := by
  have h1 := (pf_mono fuel (max fuel N) (le_max_left fuel N)).2 _ _ _ h
  rw [hspec (max fuel N) (le_max_right fuel N)] at h1
  exact (Option.some.inj h1).symm

/-- `prime_factors 0` yields `[0]` and leaves the state alone. -/
lemma prime_factors_zero_run {fuel : ℕ} {st : PrimeState} {r : List ℕ × PrimeState}
    (h : prime_factors fuel 0 st = some r) : r = ([0], st) := by
  obtain ⟨g, rfl⟩ : ∃ g, fuel = g + 1 := by
    cases fuel with
    | zero => simp [prime_factors] at h
    | succ g => exact ⟨g, rfl⟩
  have hfin : finished (some (Nat.sqrt 0)) none 1 (some 0) = true := by
    rw [finished_value_entry]
    exact decide_eq_true (by simp)
  obtain ⟨g', rfl⟩ : ∃ g', g = g' + 1 := by
    cases g with
    | zero => simp [prime_factors, pfLoop] at h
    | succ g' => exact ⟨g', rfl⟩
  rw [prime_factors_succ_some (pfLoop_succ_fin hfin)] at h
  exact (Option.some.inj h).symm

lemma prime_factors_sound {fuel n : ℕ} {st : PrimeState} {fs : List ℕ}
    {st' : PrimeState} (hinv : CacheInv st)
    (h : prime_factors fuel n st = some (fs, st')) :
    CacheInv st' ∧ Grows st st' ∧
    (∀ x ∈ st'.known_primes, x ∈ st.known_primes ∨ Nat.Prime x) := by
  rcases Nat.eq_zero_or_pos n with rfl | hn
  · obtain ⟨h1, h2⟩ := Prod.mk.injEq _ _ _ _ ▸ prime_factors_zero_run h
    subst h2
    exact ⟨hinv, Grows_refl _, fun x hx => Or.inl hx⟩
  · obtain ⟨N, fs₀, st₀, hrun, _, hinv', hgrow', hnew'⟩ := pfSpec_all n hn st hinv
    obtain ⟨h1, h2⟩ := Prod.mk.injEq _ _ _ _ ▸ prime_factors_det h hrun
    subst h2
    exact ⟨hinv', hgrow', hnew'⟩

lemma load_verify_fail {fuel : ℕ} {kpc : List ℕ} {verify : ℕ} {ls : Bool}
    {st st' : PrimeState} (hv : verify ≠ 0)
    (h : are_prime fuel (kpc.take verify) st = some (false, st')) :
    load fuel kpc verify ls st = some (st', some PyError.nameError) := by
  simp [load, hv, h]

/-- A `load` whose verification sample contains a composite raises (a
`NameError`, given the undefined `verify_num` in the message) while keeping
every previously cached entry: the prior contiguous list is still an initial
segment and the membership set only grew. -/
lemma load_fail_spec {kpc : List ℕ} {verify : ℕ} {ls : Bool} {st : PrimeState}
    (hinv : CacheInv st) (hv : verify ≠ 0)
    (hbad : ∃ c ∈ kpc.take verify, ¬ (c = 1 ∨ Nat.Prime c)) :
    ∃ fuel st',
      (∀ f, fuel ≤ f → load f kpc verify ls st = some (st', some PyError.nameError)) ∧
      CacheInv st' ∧ Grows st st' := by
  obtain ⟨fuel, b, st', hrun, hb, hinv', hgrow', _⟩ :=
    @are_prime_spec (kpc.take verify) st hinv
  have hbf : b = false := by
    rw [hb, decide_eq_false_iff_not]
    intro hall
    obtain ⟨c, hc, hnc⟩ := hbad
    exact hnc (hall c hc)
  subst hbf
  exact ⟨fuel, st', fun f hf => load_verify_fail hv (hrun f hf), hinv', hgrow'⟩

lemma runCall_sound {fuel : ℕ} {st st' : PrimeState} {c : Call}
    (hinv : CacheInv st) (h : runCall fuel st c = some st') :
    CacheInv st' ∧ Grows st st' ∧
    (callNoOne c → ∀ x ∈ st'.known_primes, x ∈ st.known_primes ∨ Nat.Prime x) := by
  cases c with
  | isPrime n =>
    cases hip : is_prime fuel n st with
    | none =>
      rw [runCall, hip] at h
      exact absurd h (by simp)
    | some r =>
      obtain ⟨b, st₁⟩ := r
      rw [runCall, hip] at h
      have hst : st' = st₁ := by
        simpa using h.symm
      subst hst
      obtain ⟨_, hinv', hgrow', hnew'⟩ := is_prime_sound hinv hip
      refine ⟨hinv', hgrow', ?_⟩
      intro hno x hx
      rcases hnew' x hx with h' | ⟨hp, _⟩ | ⟨_, h1⟩
      · exact Or.inl h'
      · exact Or.inr hp
      · exact absurd h1 hno
  | iterPrimes mv mn s =>
    rw [runCall] at h
    rw [iter_primes] at h
    by_cases hs : st.known_primes_contiguous.length < (s.getD 0)
    · rw [if_pos hs] at h
      have hst : st' = st := by simpa using h.symm
      subst hst
      exact ⟨hinv, Grows_refl _, fun _ x hx => Or.inl hx⟩
    · rw [if_neg hs] at h
      cases hit : iterLoop fuel mv mn 1 (s.getD 0) st with
      | none =>
        rw [hit] at h
        exact absurd h (by simp)
      | some r =>
        obtain ⟨ys, st₁⟩ := r
        rw [hit] at h
        have hst : st' = st₁ := by simpa using h.symm
        subst hst
        obtain ⟨hinv', hgrow', hnew'⟩ := iterLoop_sound fuel hinv (by omega) hit
        exact ⟨hinv', hgrow', fun _ => hnew'⟩
  | primeFactors n =>
    cases hpf : prime_factors fuel n st with
    | none =>
      rw [runCall, hpf] at h
      exact absurd h (by simp)
    | some r =>
      obtain ⟨fs, st₁⟩ := r
      rw [runCall, hpf] at h
      have hst : st' = st₁ := by simpa using h.symm
      subst hst
      obtain ⟨hinv', hgrow', hnew'⟩ := prime_factors_sound hinv hpf
      exact ⟨hinv', hgrow', fun _ => hnew'⟩
  | arePrime cands =>
    cases hap : are_prime fuel cands st with
    | none =>
      rw [runCall, hap] at h
      exact absurd h (by simp)
    | some r =>
      obtain ⟨b, st₁⟩ := r
      rw [runCall, hap] at h
      have hst : st' = st₁ := by simpa using h.symm
      subst hst
      obtain ⟨hinv', hgrow', hnew'⟩ := areLoop_sound cands hinv hap
      refine ⟨hinv', hgrow', ?_⟩
      intro hno x hx
      rcases hnew' x hx with h' | h' | ⟨_, h1⟩
      · exact Or.inl h'
      · exact Or.inr h'
      · exact absurd h1 hno

lemma runTrace_sound : ∀ (tr : List (ℕ × Call)) {st st' : PrimeState},
    CacheInv st → runTrace tr st = some st' →
    CacheInv st' ∧ Grows st st' ∧
    ((∀ p ∈ tr, callNoOne p.2) →
      ∀ x ∈ st'.known_primes, x ∈ st.known_primes ∨ Nat.Prime x) := by
  intro tr
  induction tr with
  | nil =>
    intro st st' hinv h
    have hst : st' = st := by simpa [runTrace] using h.symm
    subst hst
    exact ⟨hinv, Grows_refl _, fun _ x hx => Or.inl hx⟩
  | cons p rest ih =>
    intro st st' hinv h
    obtain ⟨f, c⟩ := p
    rw [runTrace] at h
    cases hc : runCall f st c with
    | none =>
      rw [hc] at h
      exact absurd h (by simp)
    | some st₁ =>
      rw [hc] at h
      simp only [Option.some_bind] at h
      obtain ⟨hinv₁, hgrow₁, hnew₁⟩ := runCall_sound hinv hc
      obtain ⟨hinv', hgrow', hnew'⟩ := ih hinv₁ h
      refine ⟨hinv', Grows_trans hgrow₁ hgrow', ?_⟩
      intro hno x hx
      rcases hnew' (fun q hq => hno q (List.mem_cons_of_mem _ hq)) x hx with h' | h'
      · rcases hnew₁ (hno (f, c) (List.mem_cons_self _ _)) x h' with h'' | h''
        · exact Or.inl h''
        · exact Or.inr h''
      · exact Or.inr h'

/-! ## The initial state and the section-3 invariant -/

lemma SpecInv.toCacheInv {st : PrimeState} (h : SpecInv st) : CacheInv st :=
  ⟨fun p hp => Or.inr (h.set_prime p hp), h.kpc_eq, h.kpc_mem⟩

lemma specInv_initState : SpecInv initState :=
  ⟨by decide, ⟨11, by omega, by decide⟩, by decide⟩

lemma specInv_wideState : SpecInv wideState :=
  ⟨by decide, ⟨31, by omega, by decide⟩, by decide⟩

/-! ## The claims -/

/-- C1 (confirmed): for every `n ≥ 2`, on any engine whose caches satisfy
the section-3 invariants, `is_prime n` completes and returns `true` exactly
when no integer in `[2, sqrt n]` divides `n` — it agrees with trial
division up to the square root, which for `n ≥ 2` is primality. -/
theorem is_prime_trial_division (n : ℕ) (hn : 2 ≤ n) (st : PrimeState)
    (hinv : SpecInv st) :
    ∃ fuel b st', (∀ f, fuel ≤ f → is_prime f n st = some (b, st')) ∧
      (b = true ↔ ∀ d, 2 ≤ d → d ≤ Nat.sqrt n → ¬ d ∣ n) ∧
      (b = true ↔ Nat.Prime n) := by
  obtain ⟨fuel, b, st', hrun, hb, _, _, _, _⟩ := isPrimeSpec_all n st hinv.toCacheInv
  have hbp : b = true ↔ Nat.Prime n := by
    rw [hb]
    simp only [decide_eq_true_eq]
    constructor
    · rintro (h1 | h)
      · omega
      · exact h
    · exact Or.inr
  refine ⟨fuel, b, st', hrun, ?_, hbp⟩
  rw [hbp, Nat.prime_def_le_sqrt]
  constructor
  · rintro ⟨-, h⟩ d h2 hle
    exact h d h2 hle
  · intro h
    exact ⟨hn, fun m hm hms => h m hm hms⟩

theorem is_prime_trial_division_witness :
    ∃ fuel b st', (∀ f, fuel ≤ f → is_prime f 13 initState = some (b, st')) ∧
      (b = true ↔ ∀ d, 2 ≤ d → d ≤ Nat.sqrt 13 → ¬ d ∣ 13) ∧
      (b = true ↔ Nat.Prime 13) :=
  is_prime_trial_division 13 (by decide) initState specInv_initState

/-- C2 (confirmed): for every `n ≥ 2`, on any engine satisfying the
section-3 invariants, `prime_factors n` completes and returns the ascending
prime factorisation of `n` with multiplicity: product `n`, every element
prime, sorted, and `[n]` when `n` is itself prime; `prime_factors 1`
returns `[1]`.  (The divisor bound is modelled as the exact integer square
root, as the spec states it.) -/
theorem prime_factors_correct (n : ℕ) (hn : 2 ≤ n) (st : PrimeState)
    (hinv : SpecInv st) :
    (∃ fuel fs st', (∀ f, fuel ≤ f → prime_factors f n st = some (fs, st')) ∧
      fs = n.primeFactorsList ∧ fs.prod = n ∧ (∀ p ∈ fs, Nat.Prime p) ∧
      List.Sorted (· ≤ ·) fs ∧ (Nat.Prime n → fs = [n])) ∧
    (∃ fuel fs st', (∀ f, fuel ≤ f → prime_factors f 1 st = some (fs, st')) ∧
      fs = [1]) := by
  constructor
  · obtain ⟨fuel, fs, st', hrun, hfs, _, _, _⟩ :=
      pfSpec_all n (by omega) st hinv.toCacheInv
    rw [if_neg (by omega)] at hfs
    subst hfs
    exact ⟨fuel, _, st', hrun, rfl, Nat.prod_primeFactorsList (by omega),
      fun p hp => Nat.prime_of_mem_primeFactorsList hp,
      Nat.primeFactorsList_sorted n, fun hp => Nat.primeFactorsList_prime hp⟩
  · obtain ⟨fuel, fs, st', hrun, hfs, _, _, _⟩ :=
      pfSpec_all 1 (le_refl 1) st hinv.toCacheInv
    rw [if_pos rfl] at hfs
    exact ⟨fuel, fs, st', hrun, hfs⟩

theorem prime_factors_correct_witness :
    (∃ fuel fs st', (∀ f, fuel ≤ f → prime_factors f 21 initState = some (fs, st')) ∧
      fs = Nat.primeFactorsList 21 ∧ fs.prod = 21 ∧ (∀ p ∈ fs, Nat.Prime p) ∧
      List.Sorted (· ≤ ·) fs ∧ (Nat.Prime 21 → fs = [21])) ∧
    (∃ fuel fs st', (∀ f, fuel ≤ f → prime_factors f 1 initState = some (fs, st')) ∧
      fs = [1]) :=
  prime_factors_correct 21 (by decide) initState specInv_initState

/-- C3 (corrected): `max_num` is an *absolute end index* into the logical
prime sequence, not a relative count.  From start index `s` with bound `k`,
on any engine satisfying the section-3 invariants whose cached prefix
reaches index `s`, the generator completes and emits exactly `k - s` primes
(none when `s ≥ k`): the entries at indices `s, …, k-1` of the final
contiguous list. -/
theorem iter_primes_count_window (k s : ℕ) (st : PrimeState) (hinv : SpecInv st)
    (hs : s ≤ st.known_primes_contiguous.length) :
    ∃ fuel ys st',
      (∀ f, fuel ≤ f →
        iter_primes f none (some k) (some s) st = .ok (some (ys, st'))) ∧
      ys.length = k - s ∧
      ys = (st'.known_primes_contiguous.drop s).take (k - s) := by
  obtain ⟨fuel, ys, st', hrun, _, _, _, hlen, hys⟩ :=
    @iterLoop_count_spec k isPrimeSpec_all k s st 1 hinv.toCacheInv hs (by omega)
  refine ⟨fuel, ys, st', ?_, hlen, hys⟩
  intro f hf
  rw [iter_primes]
  have hguard : ¬ st.known_primes_contiguous.length < (Option.getD (some s) 0) := by
    simpa using not_lt.2 hs
  rw [if_neg hguard]
  show Except.ok (iterLoop f none (some k) 1 s st) = _
  rw [hrun f hf]

theorem iter_primes_count_window_witness :
    ∃ fuel ys st',
      (∀ f, fuel ≤ f →
        iter_primes f none (some 10) (some 7) wideState = .ok (some (ys, st'))) ∧
      ys.length = 10 - 7 ∧
      ys = (st'.known_primes_contiguous.drop 7).take (10 - 7) :=
  iter_primes_count_window 10 7 wideState specInv_wideState (by decide)

set_option maxHeartbeats 4000000 in
set_option maxRecDepth 8000 in
/-- C3, counterexample to the original wording: replaying the spec\'s own
example, `iter_primes(max_num=10)` from the seed yields the first ten primes
and leaves both caches at `tenState`; the follow-up call
`iter_primes(max_num=10, start_num=7)` then yields only `[19, 23, 29]` —
the three cached entries at indices 7–9 — not up to ten primes drawn from
logical indices 7–16. -/
theorem iter_primes_count_absolute :
    iterYields 40 none (some 10) none initState =
      some [2, 3, 5, 7, 11, 13, 17, 19, 23, 29] ∧
    iterFinal 40 none (some 10) none initState = some tenState ∧
    iterYields 40 none (some 10) (some 7) tenState = some [19, 23, 29] := by
  refine ⟨?_, ?_, ?_⟩
  · simp +decide [iterYields, iter_primes, iterLoop, is_prime, trialLoop, extendLoop,
      growLoop, finished, initState, set_contiguous, add_known_prime]
  · simp +decide [iterFinal, iter_primes, iterLoop, is_prime, trialLoop,
      extendLoop, growLoop, finished, initState, set_contiguous, add_known_prime,
      tenState]
  · simp +decide [iterYields, iter_primes, iterLoop, is_prime, trialLoop, extendLoop,
      growLoop, finished, tenState, set_contiguous, add_known_prime]

/-- C4 (corrected): a `load` whose verification sample contains a composite
does fail before the prefix is replaced, but the raised exception is a
`NameError` (the `raise` at line 164 builds its message from the undefined
name `verify_num`, so the intended `ValueError` is never constructed), and
the prior cache state is not left untouched: it survives only monotonically
— the old contiguous list as an initial segment, the old membership set as
a subset of a set the failed verification pass may have enlarged. -/
theorem load_composite_raises (kpc : List ℕ) (verify : ℕ) (ls : Bool)
    (st : PrimeState) (hinv : SpecInv st) (hv : verify ≠ 0)
    (hbad : ∃ c ∈ kpc.take verify, ¬ (c = 1 ∨ Nat.Prime c)) :
    ∃ fuel st',
      (∀ f, fuel ≤ f →
        load f kpc verify ls st = some (st', some PyError.nameError)) ∧
      CacheInv st' ∧ Grows st st' :=
  load_fail_spec hinv.toCacheInv hv hbad

theorem load_composite_raises_witness :
    ∃ fuel st',
      (∀ f, fuel ≤ f →
        load f [13, 4] 1000 false initState = some (st', some PyError.nameError)) ∧
      CacheInv st' ∧ Grows initState st' :=
  load_composite_raises [13, 4] 1000 false initState specInv_initState
    (by decide) (by decide)

set_option maxHeartbeats 4000000 in
set_option maxRecDepth 8000 in
/-- C4, counterexample to the original wording: `load [13, 4]` with
verification on, from the fresh engine, raises the `NameError` and leaves a
state that is *not* the prior one — the membership set has gained `13`
(added by the verifying `is_prime` call before `4` was found composite). -/
theorem load_failure_mutates :
    (load 40 [13, 4] 1000 false initState).map
        (fun r => (r.2, decide (13 ∈ r.1.known_primes), decide (r.1 = initState))) =
      some (some PyError.nameError, true, false) ∧
    13 ∉ initState.known_primes := by
  constructor
  · simp +decide [load, are_prime, areLoop, is_prime, trialLoop, extendLoop,
      growLoop, finished, initState, set_contiguous, add_known_prime, loadAssign]
  · decide

/-- C5 (corrected): the membership-set invariant holds only for call
sequences that never ask about the number `1`: after any completed sequence
of `is_prime` / `iter_primes` / `prime_factors` / `are_prime` calls from
the fresh engine in which no `is_prime` argument is `1` and no `are_prime`
candidate list contains `1`, every member of the membership set is prime. -/
theorem known_primes_set_prime_no_one (tr : List (ℕ × Call)) (st' : PrimeState)
    (h : runTrace tr initState = some st') (hno : ∀ p ∈ tr, callNoOne p.2) :
    ∀ x ∈ st'.known_primes, Nat.Prime x := by
  obtain ⟨_, _, hnew⟩ :=
    runTrace_sound tr (SpecInv.toCacheInv specInv_initState) h
  intro x hx
  rcases hnew hno x hx with h' | h'
  · exact specInv_initState.set_prime x h'
  · exact h'

theorem known_primes_set_prime_no_one_witness :
    runTrace [] initState = some initState ∧
    ∀ x ∈ initState.known_primes, Nat.Prime x :=
  ⟨rfl, known_primes_set_prime_no_one [] initState rfl (by simp)⟩

set_option maxHeartbeats 1000000 in
/-- C5, counterexample to the original wording: the single call
`is_prime 1` from the fresh engine returns `True` and inserts `1` — which
is not prime — into the membership set. -/
theorem is_prime_one_pollutes :
    ((is_prime 20 1 initState).map
        (fun r => (r.1, decide (1 ∈ r.2.known_primes))) = some (true, true)) ∧
    ¬ Nat.Prime 1 := by
  constructor
  · simp +decide [is_prime, trialLoop, extendLoop, growLoop, finished, initState,
      set_contiguous, add_known_prime]
  · decide

/-- C6 (confirmed): `iter_primes` raises `NotImplementedError` (the code\'s
realisation of the spec\'s `OutOfRangeError`) exactly when the start index
exceeds the number of cached contiguous primes — an error kind distinct
from the other three raised by the class — and raises nothing when the
start index is within the cached prefix. -/
theorem iter_primes_start_guard (fuel : ℕ) (mv mn : Option ℕ) (s : ℕ)
    (st : PrimeState) :
    (st.known_primes_contiguous.length < s →
      iter_primes fuel mv mn (some s) st = .error .notImplementedError) ∧
    (s ≤ st.known_primes_contiguous.length →
      ∀ e, iter_primes fuel mv mn (some s) st ≠ .error e) ∧
    PyError.notImplementedError ≠ .nameError ∧
    PyError.notImplementedError ≠ .valueError ∧
    PyError.notImplementedError ≠ .fileExistsError := by
  refine ⟨?_, ?_, by decide, by decide, by decide⟩
  · intro hlt
    rw [iter_primes]
    have hguard : st.known_primes_contiguous.length < (Option.getD (some s) 0) := by
      simpa using hlt
    rw [if_pos hguard]
  · intro hle e
    rw [iter_primes]
    have hguard : ¬ st.known_primes_contiguous.length < (Option.getD (some s) 0) := by
      simpa using not_lt.2 hle
    rw [if_neg hguard]
    exact fun hcon => Except.noConfusion hcon

theorem iter_primes_start_guard_witness :
    iter_primes 5 none none (some 9) initState = .error .notImplementedError ∧
    iter_primes 5 none none (some 3) initState ≠ .error .notImplementedError :=
  ⟨(iter_primes_start_guard 5 none none 9 initState).1 (by decide),
   (iter_primes_start_guard 5 none none 3 initState).2.1 (by decide)
     PyError.notImplementedError⟩

/-- C7 (confirmed): on the fresh engine, `iter_primes` bounded by
`max_value = v` (`v ≥ 1`) completes and yields exactly the ascending list
of all primes `≤ v` — the bound is inclusive. -/
theorem iter_primes_value_complete (v : ℕ) (hv : 1 ≤ v) :
    ∃ fuel ys st',
      (∀ f, fuel ≤ f →
        iter_primes f (some v) none none initState = .ok (some (ys, st'))) ∧
      ys = primesUpTo v ∧ List.Pairwise (· < ·) ys ∧
      (∀ p, p ∈ ys ↔ (Nat.Prime p ∧ p ≤ v)) := by
  obtain ⟨fuel, ys, st', hrun, _, _, _, hys⟩ :=
    iterLoop_value_spec isPrimeSpec_all ((primesUpTo v).length) 0 initState 1
      (SpecInv.toCacheInv specInv_initState) (Nat.zero_le _) hv (by omega)
  rw [List.drop_zero] at hys
  subst hys
  refine ⟨fuel, _, st', ?_, rfl, primesUpTo_pairwise v, fun p => mem_primesUpTo⟩
  intro f hf
  rw [iter_primes]
  have hguard : ¬ initState.known_primes_contiguous.length < (Option.getD none 0) := by
    simp
  rw [if_neg hguard]
  show Except.ok (iterLoop f (some v) none 1 0 initState) = _
  rw [hrun f hf]

theorem iter_primes_value_complete_witness :
    ∃ fuel ys st',
      (∀ f, fuel ≤ f →
        iter_primes f (some 10) none none initState = .ok (some (ys, st'))) ∧
      ys = primesUpTo 10 ∧ List.Pairwise (· < ·) ys ∧
      (∀ p, p ∈ ys ↔ (Nat.Prime p ∧ p ≤ 10)) :=
  iter_primes_value_complete 10 (by decide)

/-- C8 (confirmed): termination, expressed in the fuel model — for every
`n ≥ 2` and every engine satisfying the section-3 invariants, some finite
fuel completes `is_prime n`; likewise every `iter_primes` call bounded by
`max_value` or by `max_num` (with an in-range start) completes on some
finite fuel.  The inductions behind `isPrimeSpec_all` formalise the
spec\'s measure: candidates tested inside the extension loop stay strictly
below the number being extended for, and the primality scan stops once
`p² > n`. -/
theorem core_calls_terminate (n : ℕ) (hn : 2 ≤ n) (v k s : ℕ)
    (st : PrimeState) (hinv : SpecInv st)
    (hs : s ≤ st.known_primes_contiguous.length) :
    (∃ fuel b st', is_prime fuel n st = some (b, st')) ∧
    (∃ fuel ys st', iter_primes fuel (some v) none none st = .ok (some (ys, st'))) ∧
    (∃ fuel ys st',
      iter_primes fuel none (some k) (some s) st = .ok (some (ys, st'))) := by
  have hinv' := hinv.toCacheInv
  have hguard0 : ¬ st.known_primes_contiguous.length < (Option.getD none 0) := by
    simp
  refine ⟨?_, ?_, ?_⟩
  · obtain ⟨fuel, b, st', hrun, _⟩ := isPrimeSpec_all n st hinv'
    exact ⟨fuel, b, st', hrun fuel (le_refl fuel)⟩
  · rcases Nat.eq_zero_or_pos v with rfl | hv
    · refine ⟨1, [], st, ?_⟩
      rw [iter_primes]
      rw [if_neg hguard0]
      have hfin : finished (some 0) none 1 (some (Option.getD none 0)) = true := by
        decide
      rw [iterLoop_succ_fin hfin]
    · obtain ⟨fuel, ys, st', hrun, _⟩ :=
        iterLoop_value_spec isPrimeSpec_all ((primesUpTo v).length) 0 st 1 hinv'
          (Nat.zero_le _) hv (by omega)
      refine ⟨fuel, ys, st', ?_⟩
      rw [iter_primes]
      rw [if_neg hguard0]
      show Except.ok (iterLoop fuel (some v) none 1 0 st) = _
      rw [hrun fuel (le_refl fuel)]
  · obtain ⟨fuel, ys, st', hrun, _⟩ :=
      @iterLoop_count_spec k isPrimeSpec_all k s st 1 hinv' hs (by omega)
    refine ⟨fuel, ys, st', ?_⟩
    rw [iter_primes]
    have hguard : ¬ st.known_primes_contiguous.length < (Option.getD (some s) 0) := by
      simpa using not_lt.2 hs
    rw [if_neg hguard]
    show Except.ok (iterLoop fuel none (some k) 1 s st) = _
    rw [hrun fuel (le_refl fuel)]

theorem core_calls_terminate_witness :
    (∃ fuel b st', is_prime fuel 2 initState = some (b, st')) ∧
    (∃ fuel ys st',
      iter_primes fuel (some 10) none none initState = .ok (some (ys, st'))) ∧
    (∃ fuel ys st',
      iter_primes fuel none (some 3) (some 0) initState = .ok (some (ys, st'))) :=
  core_calls_terminate 2 (by decide) 10 3 0 initState specInv_initState (by decide)

/-- C9 (confirmed): from the seeded state, every completed sequence of
`iter_primes` / `is_prime` / `prime_factors` / `are_prime` calls leaves the
contiguous list strictly increasing and gap-free — it is exactly the primes
from `2` up to its last element — and contained in the membership set. -/
theorem contiguous_invariant_preserved (tr : List (ℕ × Call)) (st' : PrimeState)
    (h : runTrace tr initState = some st') :
    List.Pairwise (· < ·) st'.known_primes_contiguous ∧
    (∀ p, p ∈ st'.known_primes_contiguous ↔
      (Nat.Prime p ∧ p ≤ st'.known_primes_contiguous.getLastD 0)) ∧
    (∀ p ∈ st'.known_primes_contiguous, p ∈ st'.known_primes) := by
  obtain ⟨hinv', _, _⟩ :=
    runTrace_sound tr (SpecInv.toCacheInv specInv_initState) h
  obtain ⟨P, hPp, hP11, hkpc, _, hlastD⟩ := hinv'.canonical
  refine ⟨?_, ?_, hinv'.kpc_mem⟩
  · rw [hkpc]
    exact primesUpTo_pairwise P
  · intro p
    rw [hlastD, hkpc, mem_primesUpTo]

theorem contiguous_invariant_preserved_witness :
    List.Pairwise (· < ·) initState.known_primes_contiguous ∧
    (∀ p, p ∈ initState.known_primes_contiguous ↔
      (Nat.Prime p ∧ p ≤ initState.known_primes_contiguous.getLastD 0)) ∧
    (∀ p ∈ initState.known_primes_contiguous, p ∈ initState.known_primes) :=
  contiguous_invariant_preserved [] initState rfl

set_option maxHeartbeats 1000000 in
/-- C10 (confirmed): the behaviour the spec leaves open below 2 —
`is_prime 0` returns `False` (and leaves the state alone); `is_prime 1`
returns `True` and inserts `1` into the membership set; and once `1` is in
the set, any later `is_prime 1` short-circuits to `True` by membership,
returning the state unchanged. -/
theorem is_prime_below_two :
    is_prime 20 0 initState = some (false, initState) ∧
    ((is_prime 20 1 initState).map
        (fun r => (r.1, decide (1 ∈ r.2.known_primes))) = some (true, true)) ∧
    (∀ fuel st, 1 ∈ st.known_primes → is_prime (fuel + 1) 1 st = some (true, st)) := by
  refine ⟨?_, ?_, fun fuel st h => is_prime_succ_mem h⟩
  · simp +decide [is_prime, trialLoop, extendLoop, growLoop, finished, initState,
      set_contiguous, add_known_prime]
  · simp +decide [is_prime, trialLoop, extendLoop, growLoop, finished, initState,
      set_contiguous, add_known_prime]

theorem is_prime_below_two_witness :
    is_prime 6 1 (add_known_prime initState 1) =
      some (true, add_known_prime initState 1) ∧
    1 ∈ (add_known_prime initState 1).known_primes :=
  ⟨is_prime_below_two.2.2 5 (add_known_prime initState 1) (by decide), by decide⟩

end PPrime
